import Mathlib

/-!
Verification of the streaming research orchestration engine of
`src/backend/researcher.py` (class `ScholarAgent`).

Modelling conventions (shallow embedding):
* Python `str` is modelled as `List Char` (`PyStr`); `str.lower` uses the
  ASCII case map, `str.split()` / `str.strip()` use `Char.isWhitespace`
  (the inputs of interest are ASCII, where this coincides with Python).
* Python `None` is `Option.none`; Python truthiness of a string `s` is
  `s ≠ ""`, of an optional string it is `some s` with `s ≠ ""`.
* Python `dict`/`set` are modelled as association lists / lists used up to
  membership; wherever the code observes a set only through `sorted(...)`
  the model sorts lexicographically, as Python does for `str`.
* Network and model-service calls are oracles carried by an `Env` record:
  a call that can raise is an `Except PyStr _` value, a per-URL fetch is a
  function from position and URL to `Except Unit PyStr`.  The duck-typed
  URL walkers `_extract_urls` / `_extract_grounding_urls` traverse opaque
  client objects, so their *results* are oracle data in `Env`.
* The async generator `chat_stream` is embedded as a function from the
  oracle environment to the list of emitted events: a state-passing monad
  `Gen` accumulates events, and the surrounding `try/except` appends one
  `error` event when the body raises (already-emitted events persist, as
  for a Python generator).
-/

/-- Python strings are modelled as lists of characters. -/
abbrev PyStr := List Char

/-- Python truthiness of a string. -/
def truthyS (s : PyStr) : Bool := s ≠ []

/-- Python truthiness of an optional string (`None` and `""` are falsy). -/
def truthyO : Option PyStr → Bool
  | none => false
  | some s => truthyS s

/-- `a or b` on optional strings, with Python falsiness (`None`/`""`). -/
def pyOr (a b : Option PyStr) : Option PyStr :=
  if truthyO a then a else b

/-- ASCII lower-casing of a string, modelling `str.lower()`. -/
def lowerP (s : PyStr) : PyStr := s.map Char.toLower

/-- `needle` occurs at the head of `hay` (helper for substring search). -/
def leadsWith : PyStr → PyStr → Bool
  | _, [] => true
  | [], _ :: _ => false
  | h :: hs, n :: ns => h == n && leadsWith hs ns

/-- Python `needle in hay` substring test. -/
def hasSub : PyStr → PyStr → Bool
  | [], needle => needle.isEmpty
  | hay@(_ :: t), needle => leadsWith hay needle || hasSub t needle

/-- `str.split(sep)` for a one-character separator: keeps empty pieces,
always returns at least one piece. -/
def splitOnChar (sep : Char) : PyStr → List PyStr
  | [] => [[]]
  | c :: rest =>
    if c = sep then [] :: splitOnChar sep rest
    else
      match splitOnChar sep rest with
      | [] => [[c]]
      | h :: t => (c :: h) :: t

/-- The lines of a text: `text.split("\n")`. -/
def pyLines (t : PyStr) : List PyStr := splitOnChar '\n' t

/-- `str.strip()`: drop whitespace from both ends. -/
def pyStrip (s : PyStr) : PyStr :=
  ((s.dropWhile Char.isWhitespace).reverse.dropWhile Char.isWhitespace).reverse

/-- The head surviving a `dropWhile` falsifies the predicate. -/
theorem dropWhile_head_false (p : Char → Bool) (t : List Char) (c : Char)
    (cs : List Char) (h : t.dropWhile p = c :: cs) : p c = false := by
  have h2 := List.head_dropWhile_not p (l := t) (by rw [h]; simp)
  have h3 : (t.dropWhile p).head (by rw [h]; simp) = c := by simp [h]
  rw [h3] at h2
  simpa using h2

/-- Accumulator pass of `str.split()`: `cur` holds the reversed
in-progress word. -/
def splitWsAux : PyStr → PyStr → List PyStr
  | [], cur => if cur = [] then [] else [cur.reverse]
  | c :: rest, cur =>
    if c.isWhitespace then
      if cur = [] then splitWsAux rest []
      else cur.reverse :: splitWsAux rest []
    else splitWsAux rest (c :: cur)

/-- `str.split()` with no argument: the maximal non-whitespace runs. -/
def pySplitWs (t : PyStr) : List PyStr := splitWsAux t []

/-- Number of words of a text, `len(text.split())`. -/
def wordCount (t : PyStr) : Nat := (pySplitWs t).length

/-- Decimal representation of a natural number (for f-string payloads). -/
def natStr (n : Nat) : PyStr := Nat.toDigits 10 n

/-- Lexicographic (code-point) strict order on strings, Python `s < t`. -/
def lexLt : PyStr → PyStr → Bool
  | [], [] => false
  | [], _ :: _ => true
  | _ :: _, [] => false
  | a :: as, b :: bs =>
    if a.toNat < b.toNat then true
    else if b.toNat < a.toNat then false
    else lexLt as bs

/-- Insert into a lexicographically sorted list, skipping duplicates. -/
def insLex (x : PyStr) : List PyStr → List PyStr
  | [] => [x]
  | y :: ys =>
    if lexLt x y then x :: y :: ys
    else if x = y then y :: ys
    else y :: insLex x ys

/-- `sorted(set(l))`: the distinct elements in lexicographic order.
Python sets are unordered, so the code only observes them through
`sorted(...)`; this is that observation. -/
def setSorted (l : List PyStr) : List PyStr := l.foldl (fun acc x => insLex x acc) []

/- ------------------------------------------------------------------ -/
/-! ## Closures of `ScholarAgent.chat_stream`: the pure helpers -/

/-- `_wants_deep_research` keyword list (researcher.py lines 38-49). -/
def deepKeywords : List PyStr :=
  [("deep research").data, ("report").data, ("outline").data, ("trends").data,
   ("deep dive").data, ("earnings").data, ("analysis").data,
   ("due diligence").data, ("investment memo").data, ("memo").data]

/-- `_wants_deep_research(text)` (researcher.py lines 37-51). -/
def wantsDeepResearch (text : PyStr) : Bool :=
  deepKeywords.any (fun k => hasSub (lowerP text) k)

/-- `_needs_regen` trigger phrases (researcher.py lines 55-64). -/
def regenTriggers : List PyStr :=
  [("search queries").data, ("i can help you gather").data,
   ("i can't directly").data, ("i cannot directly").data,
   ("use a word processor").data, ("suggested outline").data,
   ("you can then use").data, ("i can provide the content").data]

/-- `_needs_regen(text)` (researcher.py lines 53-65). -/
def needsRegen (text : PyStr) : Bool :=
  regenTriggers.any (fun t => hasSub (lowerP text) t)

/-- A line matches the numbering pattern `^\d+\.\s+`. -/
def numberedLine (line : PyStr) : Bool :=
  let (ds, r) := line.span Char.isDigit
  match ds, r with
  | [], _ => false
  | _ :: _, '.' :: r2 =>
    match r2 with
    | [] => false
    | c :: _ => c.isWhitespace
  | _, _ => false

/-- A stripped line starts with the heading marker `#`. -/
def headingLine (line : PyStr) : Bool :=
  match line with
  | '#' :: _ => true
  | _ => false

/-- The stripped, non-blank lines of a text (researcher.py line 68). -/
def strippedLines (text : PyStr) : List PyStr :=
  ((pyLines text).map pyStrip).filter (fun l => l ≠ [])

/-- `_looks_like_outline(text)` (researcher.py lines 67-74): empty line
list counts as an outline; otherwise at least 6 numbered lines, no
heading lines, and fewer than 600 words. -/
def looksLikeOutline (text : PyStr) : Bool :=
  let lines := strippedLines text
  match lines with
  | [] => true
  | _ :: _ =>
    decide (6 ≤ (lines.filter numberedLine).length) &&
    decide ((lines.filter headingLine).length = 0) &&
    decide (wordCount text < 600)

/-- The redirect-host marker (researcher.py line 96). -/
def redirectMarker : PyStr :=
  ("vertexaisearch.cloud.google.com/grounding-api-redirect").data

/-- `_is_redirect(url)` (researcher.py lines 95-96). -/
def isRedirect (url : PyStr) : Bool := hasSub url redirectMarker

/-- The SVG namespace noise URL (researcher.py line 101). -/
def svgUrl : PyStr := ("http://www.w3.org/2000/svg").data

/-- `_clean_url(url)` (researcher.py lines 98-103). -/
def cleanUrl : Option PyStr → Option PyStr
  | none => none
  | some s => if s = [] then none else if s = svgUrl then none else some s

/-- First, cleaning pass of `_filter_sources` (researcher.py lines 106-113). -/
def filterClean (urls : List PyStr) : List PyStr :=
  urls.filterMap (fun u =>
    match cleanUrl (some u) with
    | none => none
    | some v => if isRedirect v then none else some v)

/-- Order-preserving dedup loop of `_filter_sources` (researcher.py lines
114-121); the `seen` set is the membership of the accumulated list. -/
def dedupFirstAux : List PyStr → List PyStr → List PyStr
  | [], acc => acc
  | u :: rest, acc =>
    if u ∈ acc then dedupFirstAux rest acc
    else dedupFirstAux rest (acc ++ [u])

/-- Keep the first occurrence of each element, in first-occurrence order. -/
def dedupFirst (l : List PyStr) : List PyStr := dedupFirstAux l []

/-- `_filter_sources(urls)` (researcher.py lines 105-122). -/
def filterSources (urls : List PyStr) : List PyStr :=
  dedupFirst (filterClean urls)

/-- `_resolve_redirects(urls)` (researcher.py lines 124-144).  The
semaphore-bounded concurrent fetches are modelled by a per-position
oracle `fetch`: `Except.ok r` is the landing URL `str(resp.url)`,
`Except.error ()` is any raised exception, answered by the original URL.
`asyncio.gather` returns results in task order, i.e. positionally. -/
def resolveRedirects (fetch : Nat → PyStr → Except Unit PyStr) (urls : List PyStr) :
    List PyStr :=
  if urls = [] then []
  else urls.enum.map (fun p =>
    match fetch p.1 p.2 with
    | .ok r => r
    | .error _ => p.2)

/- ------------------------------------------------------------------ -/
/-! ## Grounding metadata and the citation mapper -/

/-- One grounding chunk after the duck-typed field lookups: `webUri` is
`_get(web, "uri", "url")` when `web = _get(chunk, "web", "web_result",
"webResult")` is present (else `none`), `chunkUri` is
`_get(chunk, "uri", "url")`. -/
structure RawChunk where
  webUri : Option PyStr
  chunkUri : Option PyStr
deriving DecidableEq

/-- One support record after normalization (researcher.py lines 166-175);
`indices` models `grounding_chunk_indices` after the
integers-only filter, so it is a list of `Int`. -/
structure RawSupport where
  startOff : Option Int
  endOff : Option Int
  indices : List Int
deriving DecidableEq

/-- Grounding metadata, as consumed by `_parse_grounding`. -/
structure Grounding where
  chunks : List RawChunk
  supports : List RawSupport
deriving DecidableEq

/-- The chunk-URL half of `_parse_grounding(gm)` (researcher.py lines
158-163): per chunk, `_clean_url(web-uri or chunk-uri)`. -/
def parseGroundingChunkUrls (gm : Grounding) : List (Option PyStr) :=
  gm.chunks.map (fun c => cleanUrl (pyOr c.webUri c.chunkUri))

/-- The support half of `_parse_grounding(gm)` (researcher.py lines
165-175); with the typed model the normalization is the identity. -/
def parseGroundingSupports (gm : Grounding) : List RawSupport := gm.supports

/-- State of the `_build_source_map` loop: the ordered source list, the
`seen` dict (URL to 1-based display index) and the `index_map` dict
(input position to display index), both as association lists. -/
structure BsmSt where
  sources : List PyStr
  seen : List (PyStr × Nat)
  imap : List (Nat × Nat)

/-- One iteration of `_build_source_map` (researcher.py lines 183-192). -/
def bsmStep (st : BsmSt) (p : Nat × Option PyStr) : BsmSt :=
  match p.2 with
  | none => st
  | some u =>
    if u = [] then st
    else
      match List.lookup u st.seen with
      | some k => { st with imap := st.imap ++ [(p.1, k)] }
      | none =>
        { sources := st.sources ++ [u],
          seen := st.seen ++ [(u, st.sources.length + 1)],
          imap := st.imap ++ [(p.1, st.sources.length + 1)] }

/-- `_build_source_map(chunk_urls)` (researcher.py lines 179-193). -/
def buildSourceMap (l : List (Option PyStr)) : List PyStr × List (Nat × Nat) :=
  let st := l.enum.foldl bsmStep ⟨[], [], []⟩
  (st.sources, st.imap)

/-- `i in index_map and index_map[i]` for a (possibly negative) support
index. -/
def imapLookup (im : List (Nat × Nat)) (i : Int) : Option Nat :=
  if i < 0 then none else List.lookup i.toNat im

/-- Clamp `int(end)` into `[0, len(text)]` (researcher.py line 206). -/
def intClamp (e : Int) (len : Nat) : Nat := (max 0 (min e (len : Int))).toNat

/-- Add display numbers at an insertion position:
`inserts.setdefault(pos, set()).update(numbers)`.  The per-position set
is modelled as a list read later through `sorted(set(...))`. -/
def insAdd (pos : Nat) (nums : List Nat) : List (Nat × List Nat) → List (Nat × List Nat)
  | [] => [(pos, nums)]
  | (p, ns) :: rest =>
    if p = pos then (p, ns ++ nums) :: rest else (p, ns) :: insAdd pos nums rest

/-- One support's contribution to the `inserts` map (researcher.py
lines 199-207): skip a null `end`, resolve the indices through
`index_map`, skip an empty number set, else record at the clamped
position. -/
def ciStep (textLen : Nat) (im : List (Nat × Nat))
    (acc : List (Nat × List Nat)) (sup : RawSupport) : List (Nat × List Nat) :=
  match sup.endOff with
  | none => acc
  | some e =>
    let nums := sup.indices.filterMap (fun i => imapLookup im i)
    if nums = [] then acc
    else insAdd (intClamp e textLen) nums acc

/-- The `inserts` map of `_insert_citations` (researcher.py lines 198-207). -/
def buildInserts (textLen : Nat) (supports : List RawSupport)
    (im : List (Nat × Nat)) : List (Nat × List Nat) :=
  supports.foldl (ciStep textLen im) []

/-- Insert a natural number into a sorted list, skipping duplicates. -/
def insNat (x : Nat) : List Nat → List Nat
  | [] => [x]
  | y :: ys =>
    if x < y then x :: y :: ys
    else if x = y then y :: ys
    else y :: insNat x ys

/-- `sorted(set(ns))` for display numbers. -/
def sortNatSet (ns : List Nat) : List Nat := ns.foldl (fun acc x => insNat x acc) []

/-- Insert a keyed entry in ascending key order (keys are distinct). -/
def insPair (x : Nat × List Nat) : List (Nat × List Nat) → List (Nat × List Nat)
  | [] => [x]
  | y :: ys => if x.1 < y.1 then x :: y :: ys else y :: insPair x ys

/-- `sorted(inserts.keys())` paired with their entries. -/
def sortPairs (l : List (Nat × List Nat)) : List (Nat × List Nat) :=
  l.foldl (fun acc x => insPair x acc) []

/-- ` [1][3]` marker text for an already-sorted set of display numbers. -/
def markerOf (ns : List Nat) : PyStr :=
  ' ' :: (ns.map (fun n => '[' :: (natStr n ++ ("]").data))).flatten

/-- The reconstruction loop of `_insert_citations` (researcher.py lines
212-220): slices are taken from the *original* text, `last` tracks the
previous insertion offset. -/
def emitLoop (text : PyStr) (last : Nat) : List (Nat × List Nat) → PyStr
  | [] => text.drop last
  | (pos, ns) :: rest =>
    (text.drop last).take (pos - last) ++ markerOf (sortNatSet ns) ++
      emitLoop text pos rest

/-- `_insert_citations(text, supports, index_map)` (researcher.py lines
195-220). -/
def insertCitations (text : PyStr) (supports : List RawSupport)
    (im : List (Nat × Nat)) : PyStr :=
  if supports = [] ∨ im = [] then text
  else
    let inserts := buildInserts text.length supports im
    if inserts = [] then text
    else emitLoop text 0 (sortPairs inserts)

/- ------------------------------------------------------------------ -/
/-! ## Sources-block extraction and repair -/

/-- Case-insensitive comparison against a lower-case word. -/
def ciEq (s : PyStr) (lowWord : PyStr) : Bool := lowerP s == lowWord

/-- `re.match(r"^(#{1,3}\s*)?Sources$", line, re.IGNORECASE)`: at most
three leading `#`, optional whitespace (forced maximal, since `Sources`
starts with a non-space), then exactly `Sources` case-insensitively. -/
def matchSourcesHeader (line : PyStr) : Bool :=
  let hashes := line.takeWhile (fun c => c = '#')
  let rest := line.dropWhile (fun c => c = '#')
  match hashes.length with
  | 0 => ciEq line (("sources").data)
  | 1 => ciEq (rest.dropWhile Char.isWhitespace) (("sources").data)
  | 2 => ciEq (rest.dropWhile Char.isWhitespace) (("sources").data)
  | 3 => ciEq (rest.dropWhile Char.isWhitespace) (("sources").data)
  | _ => false

/-- The scan loop of `_extract_sources_block` (researcher.py lines
241-257): strip each raw line, skip blanks, start collecting after a
`Sources` header, stop at a second header. -/
def esbGo : List PyStr → Bool → List PyStr
  | [], _ => []
  | raw :: rest, inS =>
    let line := pyStrip raw
    if line = [] then esbGo rest inS
    else if matchSourcesHeader line then (if inS then [] else esbGo rest true)
    else if inS then line :: esbGo rest true
    else esbGo rest false

/-- `_extract_sources_block(text)` (researcher.py lines 241-257). -/
def extractSourcesBlock (text : PyStr) : List PyStr := esbGo (pyLines text) false

/-- `S` is entirely matched by `https?://\S+`: it starts with a scheme,
contains no whitespace, and has at least one character after `//`. -/
def urlToEnd (S : PyStr) : Bool :=
  (leadsWith S (("https://").data) && decide (8 < S.length) ||
   leadsWith S (("http://").data) && !leadsWith S (("https://").data) &&
     decide (7 < S.length)) &&
  S.all (fun c => !c.isWhitespace)

/-- Does the tail of a source line match
`(?:\s+—\s+|\s+-\s+)?(https?://\S+)?$`?  `some u?` reports a match and
the captured URL; the backtracking of the Python engine collapses to:
empty tail, or a whitespace-dash-whitespace separator followed by either
nothing or a full URL, or a full URL alone. -/
def suffixMatch (S : PyStr) : Option (Option PyStr) :=
  match S with
  | [] => some none
  | _ :: _ =>
    let w1 := S.takeWhile Char.isWhitespace
    let r1 := S.dropWhile Char.isWhitespace
    if w1 ≠ [] then
      match r1 with
      | d :: r2 =>
        if d = '—' ∨ d = '-' then
          let w2 := r2.takeWhile Char.isWhitespace
          let rest := r2.dropWhile Char.isWhitespace
          if w2 = [] then none
          else if rest = [] then some none
          else if urlToEnd rest then some (some rest)
          else none
        else none
      | [] => none
    else if urlToEnd S then some (some S) else none

/-- The lazy `(.*?)` search: find the shortest leading segment whose
complement matches `suffixMatch`; total because the empty tail matches. -/
def lazySplit : PyStr → PyStr × Option PyStr
  | [] => ([], none)
  | R@(c :: rest) =>
    match suffixMatch R with
    | some u => ([], u)
    | none =>
      let (t, u) := lazySplit rest
      (c :: t, u)

/-- `re.match(r"^\[(\d+)\]\s+(.*?)(?:\s+—\s+|\s+-\s+)?(https?://\S+)?$",
line)`: mandatory `[digits]` and at least one space, then the lazy
title/separator/URL split.  Returns the raw title and optional URL. -/
def matchSourceLine (line : PyStr) : Option (PyStr × Option PyStr) :=
  match line with
  | '[' :: r1 =>
    let ds := r1.takeWhile Char.isDigit
    let r2 := r1.dropWhile Char.isDigit
    if ds = [] then none
    else
      match r2 with
      | ']' :: r3 =>
        let w := r3.takeWhile Char.isWhitespace
        let R := r3.dropWhile Char.isWhitespace
        if w = [] then none else some (lazySplit R)
      | _ => none
  | _ => none

/-- `https?://\S+` anchored at the start of `S` (for `re.search`):
the scheme followed by the maximal non-whitespace run, nonempty. -/
def urlAt (S : PyStr) : Option PyStr :=
  if leadsWith S (("https://").data) then
    let run := (S.drop 8).takeWhile (fun c => !c.isWhitespace)
    if run = [] then none else some (("https://").data ++ run)
  else if leadsWith S (("http://").data) then
    let run := (S.drop 7).takeWhile (fun c => !c.isWhitespace)
    if run = [] then none else some (("http://").data ++ run)
  else none

/-- `re.search(r"https?://\S+", line)`: the leftmost URL substring. -/
def findFirstUrl : PyStr → Option PyStr
  | [] => none
  | S@(_ :: rest) =>
    match urlAt S with
    | some u => some u
    | none => findFirstUrl rest

/-- `hay.replace(needle, "")` for a nonempty needle: remove all
non-overlapping occurrences left to right. -/
def pyRemoveAll (hay needle : PyStr) : PyStr :=
  match needle with
  | [] => hay
  | n :: ns =>
    match hay with
    | [] => []
    | c :: rest =>
      if leadsWith (c :: rest) (n :: ns) then
        pyRemoveAll (rest.drop ns.length) (n :: ns)
      else c :: pyRemoveAll rest (n :: ns)
termination_by hay.length
decreasing_by
  · simp only [List.length_drop, List.length_cons]
    omega
  · simp

/-- One parsed source line: `{title, url}`. -/
structure ParsedItem where
  title : PyStr
  url : Option PyStr
deriving DecidableEq

/-- `_parse_sources_lines` per-line logic (researcher.py lines 261-272):
regex match, else first URL substring, else title-only. -/
def parseSourceLine (line : PyStr) : ParsedItem :=
  match matchSourceLine line with
  | some (t, u) => ⟨pyStrip t, u⟩
  | none =>
    match findFirstUrl line with
    | some u => ⟨pyStrip (pyRemoveAll line u), some u⟩
    | none => ⟨line, none⟩

/-- `_parse_sources_lines(lines)` (researcher.py lines 259-273). -/
def parseSourcesLines (lines : List PyStr) : List ParsedItem :=
  lines.map parseSourceLine

/-- One `{"title": ..., "url": ...}` object from the repair call's JSON
reply (either field may be absent/null). -/
structure RepairItem where
  title : Option PyStr
  url : Option PyStr
deriving DecidableEq

/-- `dict(...).get(k)` over the pairs of `url_map` (last binding wins,
missing key gives `None`). -/
def dictGet (pairs : List (Option PyStr × Option PyStr)) (k : Option PyStr) :
    Option PyStr :=
  match pairs.reverse.find? (fun p => p.1 = k) with
  | some p => p.2
  | none => none

/-- The reply-application step of `_repair_sources` (researcher.py lines
297-304): `none` models the `except` path (malformed JSON or reply
shapes that raise inside the `try`), which leaves `parsed` unchanged. -/
def repairApply (parsed : List ParsedItem) :
    Option (List RepairItem) → List ParsedItem
  | none => parsed
  | some items =>
    let urlMap := items.map (fun it => (it.title, it.url))
    parsed.map (fun p =>
      if truthyO p.url then p else { p with url := dictGet urlMap (some p.title) })

/-- `re.sub(r"\n(?:#{1,3}\s*)?Sources\s*\n[\s\S]*$", "", ...)` header
test at one position: a newline, the optional hashes/whitespace, the
word `Sources` case-insensitively, then whitespace leading to a newline. -/
def sourcesTailAt (S : PyStr) : Bool :=
  match S with
  | '\n' :: r =>
    let hashes := r.takeWhile (fun c => c = '#')
    let rest := r.dropWhile (fun c => c = '#')
    let core :=
      match hashes.length with
      | 0 => some r
      | 1 => some (rest.dropWhile Char.isWhitespace)
      | 2 => some (rest.dropWhile Char.isWhitespace)
      | 3 => some (rest.dropWhile Char.isWhitespace)
      | _ => none
    match core with
    | none => false
    | some body =>
      leadsWith (lowerP body) (("sources").data) &&
        ((body.drop 7).takeWhile Char.isWhitespace).contains '\n'
  | _ => false

/-- The substitution itself: delete from the leftmost match to the end. -/
def stripSourcesTail : PyStr → PyStr
  | [] => []
  | S@(c :: rest) => if sourcesTailAt S then [] else c :: stripSourcesTail rest

/-- Rebuild one `[n] Title — URL` line (researcher.py line 566);
`n` is the 1-based position in `repaired` *before* filtering. -/
def rebuiltLine (i : Nat) (p : ParsedItem) : PyStr :=
  ("[").data ++ natStr (i + 1) ++ ("] ").data ++ p.title ++ (" — ").data ++
    p.url.getD []

/-- The rewritten trailing sources block (researcher.py lines 565-567). -/
def rebuildText (ct : PyStr) (repaired : List ParsedItem) : PyStr :=
  pyStrip (stripSourcesTail ct) ++ ("\n\nSources\n").data ++
    (List.intercalate (("\n").data)
      (repaired.enum.filterMap (fun p =>
        if truthyO p.2.url then some (rebuiltLine p.1 p.2) else none)))

/- ------------------------------------------------------------------ -/
/-! ## Events, oracles and the `chat_stream` generator -/

/-- The typed event vocabulary of the NDJSON stream (the `sources` tag
belongs to the spec vocabulary; `chat_stream` itself never emits it). -/
inductive StreamEvent where
  | status (content : PyStr)
  | token (content : PyStr)
  | log (content : PyStr)
  | sources (content : List PyStr)
  | final (content : PyStr) (sources : List PyStr)
  | error (content : PyStr)
deriving DecidableEq

/-- Terminal events: `final` and `error`. -/
def isTerminal : StreamEvent → Bool
  | .final _ _ => true
  | .error _ => true
  | _ => false

/-- One message of the request body. -/
structure PyMessage where
  role : PyStr
  content : PyStr

/-- The request body: `ChatRequest(messages=[...])`. -/
structure PyChatRequest where
  messages : List PyMessage

/-- `request.messages[-1].content if request.messages else ""`. -/
def lastContent (req : PyChatRequest) : PyStr :=
  match req.messages.getLast? with
  | some m => m.content
  | none => []

/-- One `function_call` record seen on a stream chunk. -/
structure SearchCall where
  name : PyStr
  query : Option PyStr

/-- One chunk of a streaming model response, as observed by the loop at
researcher.py lines 441-456: `exUrls` lists the strings produced by
`_extract_grounding_urls(chunk)` then `_extract_urls(chunk)` (oracle
data: those walk opaque client objects), `gm` is
`_extract_grounding_metadata(chunk)`, `text` is `chunk.text`, `calls`
is `chunk.function_calls`. -/
structure StreamChunk where
  exUrls : List PyStr
  gm : Option Grounding
  text : Option PyStr
  calls : List SearchCall

/-- The result of one non-streaming gathering call (researcher.py lines
388-398): its `.text`, and the URL lists produced by
`_extract_grounding_urls` and `_extract_urls` on the response object. -/
structure GatherRes where
  text : Option PyStr
  gUrls : List PyStr
  aUrls : List PyStr

/-- The oracle environment for one execution of `chat_stream`: every
interaction with the outside world (environment variables, the model
service, the network, the wall clock). -/
structure Env where
  /-- `int(os.getenv("DEEP_RESEARCH_PASSES", "2"))`; `error` = ValueError. -/
  passesParse : Except PyStr Nat
  /-- The gathering call of pass `i`; `error` = the call raised. -/
  gather : Nat → Except PyStr GatherRes
  /-- `int(os.getenv("DEEP_RESEARCH_MIN_SECONDS", "0"))` outcome. -/
  minParse : Except PyStr Unit
  /-- The `remaining` values observed by the MinTimeWait loop, one per
  iteration (the loop is driven by the monotonic clock and always
  terminates in real time; its event trace is this list). -/
  waitRemaining : List Nat
  /-- Chunks of the main streaming call, in arrival order. -/
  mainChunks : List StreamChunk
  /-- `some e` when the main stream raises after its last chunk. -/
  mainErr : Option PyStr
  /-- Fetch oracle for the first `_resolve_redirects` phase. -/
  fetch1 : Nat → PyStr → Except Unit PyStr
  /-- Chunks of the regeneration streaming call. -/
  regenChunks : List StreamChunk
  /-- `some e` when the regeneration stream raises. -/
  regenErr : Option PyStr
  /-- Fetch oracle for the regeneration `_resolve_redirects` phase. -/
  fetch2 : Nat → PyStr → Except Unit PyStr
  /-- The source-repair model call: `error` = the call raised, `ok none`
  = the reply's JSON could not be used (the `except: pass` path),
  `ok (some items)` = the decoded `{"sources": [...]}` objects. -/
  repairCall : Except PyStr (Option (List RepairItem))

/-- The event-accumulating generator monad: a computation appends to the
already-yielded event list and either returns a value or raises. -/
def Gen (α : Type) : Type := List StreamEvent → Except PyStr α × List StreamEvent

/-- Monad structure of `Gen`. -/
instance : Monad Gen where
  pure a := fun s => (.ok a, s)
  bind x f := fun s =>
    match x s with
    | (.ok a, s') => f a s'
    | (.error e, s') => (.error e, s')

/-- `yield` one event. -/
def emit (e : StreamEvent) : Gen Unit := fun s => (.ok (), s ++ [e])

/-- Raise an exception (caught by the generator's `except`). -/
def raiseG {α : Type} (m : PyStr) : Gen α := fun s => (.error m, s)

/-- Run a fallible external operation inside the generator. -/
def liftE {α : Type} : Except PyStr α → Gen α
  | .ok a => pure a
  | .error e => raiseG e

/-- Raise iff the optional error of a stream iterator is set. -/
def optErr : Option PyStr → Except PyStr Unit
  | none => .ok ()
  | some e => .error e

/- Pure folds over the main/regen chunk lists, mirroring the
accumulating variables of the streaming loop. -/

/-- `full_response_text`: concatenation of the truthy `chunk.text`s. -/
def streamTextOf (chunks : List StreamChunk) : PyStr :=
  chunks.foldl (fun t c =>
    match c.text with
    | some x => if x ≠ [] then t ++ x else t
    | none => t) []

/-- `source_set` as the list of discovered URLs in encounter order. -/
def streamUrlsOf (chunks : List StreamChunk) : List PyStr :=
  chunks.foldl (fun l c => l ++ c.exUrls) []

/-- `last_grounding`: the last non-null grounding metadata. -/
def lastGroundingOf (chunks : List StreamChunk) : Option Grounding :=
  chunks.foldl (fun g c =>
    match c.gm with
    | some x => some x
    | none => g) none

/-- The grounding-metadata source path (researcher.py lines 461-476 and
537-551): parse, resolve the truthy chunk URLs, re-slot resolved URLs in
order (cleaning them and nulling unresolved redirect carriers). -/
def zipBack : List (Option PyStr) → List PyStr → List (Option PyStr)
  | [], _ => []
  | u :: rest, res =>
    if truthyO u then
      match res with
      | r :: res' =>
        (match cleanUrl (some r) with
         | none => none
         | some x => if isRedirect x then none else some x) :: zipBack rest res'
      | [] => none :: zipBack rest []
    else none :: zipBack rest res

/-- The normalized chunk-URL list of the grounding path. -/
def groundingNormalized (fetch : Nat → PyStr → Except Unit PyStr)
    (gm : Grounding) : List (Option PyStr) :=
  let chunkUrls := parseGroundingChunkUrls gm
  let resolved := resolveRedirects fetch
    (chunkUrls.filterMap (fun u => if truthyO u then u else none))
  zipBack chunkUrls resolved

/-- `(cited_text, sources_list)` produced by the grounding path. -/
def groundingResolve (fetch : Nat → PyStr → Except Unit PyStr)
    (gm : Grounding) (text : PyStr) : PyStr × List PyStr :=
  let normalized := groundingNormalized fetch gm
  let sm := buildSourceMap normalized
  (insertCitations text (parseGroundingSupports gm) sm.2, sm.1)

/-- The source fallbacks of the main pass (researcher.py lines 478-485):
stream-discovered URLs, then the gathering pool, then the final
dedupe/filter pass on a nonempty list. -/
def applyFallbacks (sl : List PyStr) (sset pset : List PyStr) : List PyStr :=
  let sl1 := if sl = [] ∧ sset ≠ [] then filterSources (setSorted sset) else sl
  let sl2 := if sl1 = [] ∧ pset ≠ [] then filterSources (setSorted pset) else sl1
  if sl2 ≠ [] then filterSources sl2 else sl2

/-- The regeneration fallbacks (researcher.py lines 553-557): no
gathering pool is consulted there. -/
def applyFallbacksRegen (sl : List PyStr) (rset : List PyStr) : List PyStr :=
  let sl1 := if sl = [] ∧ rset ≠ [] then filterSources (setSorted rset) else sl
  if sl1 ≠ [] then filterSources sl1 else sl1

/-- `should_regen` (researcher.py lines 487-491). -/
def shouldRegen (text : PyStr) (isDeep : Bool) (nSources : Nat) : Bool :=
  needsRegen text ||
  (isDeep && (decide (nSources < 3) || looksLikeOutline text)) ||
  (isDeep && decide (wordCount text < 600))

/-- The tail of `_repair_sources` after the model call (researcher.py
lines 305 and 563-567): collect the truthy URLs and, when any exist,
rewrite the trailing sources block. -/
def finishRepair (ct : PyStr) (repaired : List ParsedItem) : PyStr × List PyStr :=
  let sl := repaired.filterMap (fun p => if truthyO p.url then p.url else none)
  if sl = [] then (ct, []) else (rebuildText ct repaired, sl)

/-- The source-repair branch (researcher.py lines 559-567 with
`_repair_sources`, lines 275-305): extract the sources block; if it has
lines, parse them; call the repair model only when some line lacks a
URL; apply the reply. -/
def repairStage (call : Except PyStr (Option (List RepairItem)))
    (ct : PyStr) : Except PyStr (PyStr × List PyStr) :=
  let lines := extractSourcesBlock ct
  if lines = [] then .ok (ct, [])
  else
    let parsed := parseSourcesLines lines
    if parsed = [] then .ok (ct, [])
    else if parsed.all (fun p => truthyO p.url) then .ok (finishRepair ct parsed)
    else
      match call with
      | .error e => .error e
      | .ok reply => .ok (finishRepair ct (repairApply parsed reply))

/-- `pre_source_set` (sorted later): the URLs pooled while gathering. -/
def preSourcesOf (env : Env) (isDeep : Bool) : List PyStr :=
  if isDeep then
    match env.passesParse with
    | .ok p =>
      (List.range p).foldl (fun l i =>
        match env.gather i with
        | .ok r => l ++ r.gUrls ++ r.aUrls
        | .error _ => l) []
    | .error _ => []
  else []

/-- Errors raised while gathering, in pass order. -/
def gatherOk (env : Env) : Nat → Nat → Except PyStr Unit
  | _, 0 => .ok ()
  | i, n + 1 =>
    match env.gather i with
    | .ok _ => gatherOk env (i + 1) n
    | .error e => .error e

/-- The fallible prelude of deep mode: parse the pass count, run the
gathering passes, parse the minimum-seconds floor. -/
def deepChecks (env : Env) (isDeep : Bool) : Except PyStr Unit :=
  if isDeep then
    match env.passesParse with
    | .error e => .error e
    | .ok p =>
      match gatherOk env 0 p with
      | .error e => .error e
      | .ok _ => env.minParse
  else .ok ()

/-- `(cited_text, sources_list)` after the main synthesis pass. -/
def mainResolved (env : Env) (isDeep : Bool) : PyStr × List PyStr :=
  let fullText := streamTextOf env.mainChunks
  let pair :=
    match lastGroundingOf env.mainChunks with
    | some gm => groundingResolve env.fetch1 gm fullText
    | none => (fullText, [])
  (pair.1, applyFallbacks pair.2 (streamUrlsOf env.mainChunks) (preSourcesOf env isDeep))

/-- The quality-gate decision of one execution. -/
def mainShouldRegen (env : Env) (isDeep : Bool) : Bool :=
  shouldRegen (streamTextOf env.mainChunks) isDeep (mainResolved env isDeep).2.length

/-- `(cited_text, sources_list)` after the regeneration pass, before the
repair branch. -/
def regenResolved (env : Env) : PyStr × List PyStr :=
  let rT := streamTextOf env.regenChunks
  let pair :=
    match lastGroundingOf env.regenChunks with
    | some gm => groundingResolve env.fetch2 gm rT
    | none => (rT, [])
  (pair.1, applyFallbacksRegen pair.2 (streamUrlsOf env.regenChunks))

/-- The value of the regeneration-and-repair branch, or its exception. -/
def regenResult (env : Env) : Except PyStr (PyStr × List PyStr) :=
  match optErr env.regenErr with
  | .error e => .error e
  | .ok _ =>
    let rr := regenResolved env
    if rr.2 = [] then repairStage env.repairCall rr.1
    else .ok rr

/-- The final `(cited_text, sources_list)` of an execution, or the
exception that terminates it: a pure mirror of the generator body's
value (the events are produced by `chatBody` below). -/
def resultOf (env : Env) (req : PyChatRequest) : Except PyStr (PyStr × List PyStr) :=
  let isDeep := wantsDeepResearch (lastContent req)
  match deepChecks env isDeep with
  | .error e => .error e
  | .ok _ =>
    match optErr env.mainErr with
    | .error e => .error e
    | .ok _ =>
      if mainShouldRegen env isDeep then regenResult env
      else .ok (mainResolved env isDeep)

/-- Status payload `"Analyzing request..."`. -/
def analyzingS : PyStr := ("Analyzing request...").data

/-- Status payload `"Deep research mode: planning research..."`. -/
def planningS : PyStr := ("Deep research mode: planning research...").data

/-- Status payload `"Deep research mode: refining report..."`. -/
def refiningS : PyStr := ("Deep research mode: refining report...").data

/-- Status payload of gathering pass `i` of `total` (0-based `i`). -/
def passStatus (i total : Nat) : PyStr :=
  ("Research pass ").data ++ natStr (i + 1) ++ ("/").data ++ natStr total ++
    (": gathering evidence...").data

/-- Status payload of one MinTimeWait iteration. -/
def waitStatus (r : Nat) : PyStr :=
  ("Deep research: validating sources... (").data ++ natStr r ++ ("s)").data

/-- Log payload of one search tool call. -/
def searchLog (q : Option PyStr) : PyStr :=
  ("Searching for: ").data ++ q.getD (("Unknown query").data)

/-- The gathering loop (researcher.py lines 377-398): status event, then
the fallible model call, per pass. -/
def gatherEvents (env : Env) : Nat → Nat → Nat → Gen Unit
  | _, 0, _ => pure ()
  | i, n + 1, total => do
    emit (.status (passStatus i total))
    _ ← liftE ((env.gather i).map (fun _ => ()))
    gatherEvents env (i + 1) n total

/-- The MinTimeWait loop's events (researcher.py lines 403-410). -/
def waitEvents : List Nat → Gen Unit
  | [] => pure ()
  | r :: rest => do
    emit (.status (waitStatus r))
    waitEvents rest

/-- The `log` events of one chunk's `function_calls` (lines 452-456). -/
def logEvents : List SearchCall → Gen Unit
  | [] => pure ()
  | fc :: rest => do
    (if fc.name = ("google_search").data then emit (.log (searchLog fc.query))
     else pure ())
    logEvents rest

/-- The events of one stream chunk: a `token` for truthy text, then the
search logs (researcher.py lines 449-456). -/
def chunkEvents (c : StreamChunk) : Gen Unit := do
  (match c.text with
   | some x => if x ≠ [] then emit (.token x) else pure ()
   | none => pure ())
  logEvents c.calls

/-- The main streaming loop's events (researcher.py lines 441-456). -/
def consumeEvents : List StreamChunk → Gen Unit
  | [] => pure ()
  | c :: rest => do
    chunkEvents c
    consumeEvents rest

/-- The deep-research prelude of the body (researcher.py lines 374-410):
planning status, pass-count parse, gathering loop, minimum-seconds
parse, MinTimeWait loop. -/
def deepPart (env : Env) : Gen Unit := do
  emit (.status planningS)
  let p ← liftE env.passesParse
  gatherEvents env 0 p p
  _ ← liftE env.minParse
  waitEvents env.waitRemaining

/-- The regeneration branch (researcher.py lines 493-567): refining
status, the regeneration stream (which emits no events), its source
resolution and the repair branch. -/
def regenPart (env : Env) : Gen (PyStr × List PyStr) := do
  emit (.status refiningS)
  _ ← liftE (optErr env.regenErr)
  let rr := regenResolved env
  if rr.2 = [] then liftE (repairStage env.repairCall rr.1)
  else pure rr

/-- The body of the `try` block of `chat_stream` (researcher.py lines
365-573), up to but excluding the final `yield`: emits the progress
events and either returns `(cited_text, sources_list)` or raises.  The
values are the pure stage functions above; the accumulating loop
variables of the source coincide with those folds. -/
def chatBody (env : Env) (req : PyChatRequest) : Gen (PyStr × List PyStr) := do
  emit (.status analyzingS)
  let isDeep := wantsDeepResearch (lastContent req)
  (if isDeep then deepPart env else pure ())
  consumeEvents env.mainChunks
  _ ← liftE (optErr env.mainErr)
  if mainShouldRegen env isDeep then regenPart env
  else pure (mainResolved env isDeep)

/-- `ScholarAgent.chat_stream` (researcher.py lines 36-576): run the body
from an empty event list; on success append the single `final` event (the
last statement of the `try` block, which cannot itself raise), on an
exception append the single `error` event of the `except` handler. -/
def chat_stream (env : Env) (req : PyChatRequest) : List StreamEvent :=
  match chatBody env req [] with
  | (.ok r, s) => s ++ [.final r.1 r.2]
  | (.error e, s) => s ++ [.error e]

/-- The source lists carried by `final` events of an event stream. -/
def finalSourceLists (evs : List StreamEvent) : List (List PyStr) :=
  evs.filterMap (fun e =>
    match e with
    | .final _ s => some s
    | _ => none)

/- ------------------------------------------------------------------ -/
/-! ## Run characterization of the generator body -/

/-- Unfolding of `Gen` bind. -/
theorem gen_bind_run {α β : Type} (x : Gen α) (f : α → Gen β) (s : List StreamEvent) :
    (x >>= f) s =
      match x s with
      | (.ok a, s') => f a s'
      | (.error e, s') => (.error e, s') := rfl

/-- Unfolding of `Gen` pure. -/
theorem gen_pure_run {α : Type} (a : α) (s : List StreamEvent) :
    (pure a : Gen α) s = (.ok a, s) := rfl

/-- Unfolding of `emit`. -/
theorem emit_run (e : StreamEvent) (s : List StreamEvent) :
    emit e s = (.ok (), s ++ [e]) := rfl

/-- Unfolding of `liftE`: no events, the verdict of the `Except`. -/
theorem liftE_run {α : Type} (x : Except PyStr α) (s : List StreamEvent) :
    liftE x s = (x, s) := by
  cases x <;> rfl

/-- Events of the MinTimeWait loop. -/
def waitTrace : List Nat → List StreamEvent
  | [] => []
  | r :: rest => .status (waitStatus r) :: waitTrace rest

/-- Events of the `function_calls` loop of one chunk. -/
def logTrace : List SearchCall → List StreamEvent
  | [] => []
  | fc :: rest =>
    (if fc.name = ("google_search").data then [.log (searchLog fc.query)] else []) ++
      logTrace rest

/-- Events of one stream chunk. -/
def chunkTrace1 (c : StreamChunk) : List StreamEvent :=
  (match c.text with
   | some x => if x ≠ [] then [.token x] else []
   | none => []) ++ logTrace c.calls

/-- Events of the main streaming loop. -/
def chunkTrace : List StreamChunk → List StreamEvent
  | [] => []
  | c :: rest => chunkTrace1 c ++ chunkTrace rest

/-- Events of the gathering loop (truncated at a raising pass). -/
def gatherTrace (env : Env) : Nat → Nat → Nat → List StreamEvent
  | _, 0, _ => []
  | i, n + 1, total =>
    .status (passStatus i total) ::
      (match env.gather i with
       | .ok _ => gatherTrace env (i + 1) n total
       | .error _ => [])

/-- Events of the deep-research prelude. -/
def deepTrace (env : Env) : List StreamEvent :=
  .status planningS ::
    (match env.passesParse with
     | .error _ => []
     | .ok p =>
       gatherTrace env 0 p p ++
         (match gatherOk env 0 p with
          | .error _ => []
          | .ok _ =>
            match env.minParse with
            | .error _ => []
            | .ok _ => waitTrace env.waitRemaining))

/-- All events emitted by the body of `chat_stream` (excluding the
terminal `final`/`error`). -/
def chatEvents (env : Env) (req : PyChatRequest) : List StreamEvent :=
  let isDeep := wantsDeepResearch (lastContent req)
  .status analyzingS ::
    ((if isDeep then deepTrace env else []) ++
      (match deepChecks env isDeep with
       | .error _ => []
       | .ok _ =>
         chunkTrace env.mainChunks ++
           (match optErr env.mainErr with
            | .error _ => []
            | .ok _ =>
              if mainShouldRegen env isDeep then [.status refiningS] else [])))

/-- Run characterization of `waitEvents`. -/
theorem waitEvents_run (l : List Nat) (s : List StreamEvent) :
    waitEvents l s = (.ok (), s ++ waitTrace l) := by
  induction l generalizing s with
  | nil => simp [waitEvents, waitTrace, gen_pure_run]
  | cons r rest ih =>
    simp only [waitEvents, waitTrace, gen_bind_run, emit_run, ih]
    simp

/-- Run characterization of `logEvents`. -/
theorem logEvents_run (l : List SearchCall) (s : List StreamEvent) :
    logEvents l s = (.ok (), s ++ logTrace l) := by
  induction l generalizing s with
  | nil => simp [logEvents, logTrace, gen_pure_run]
  | cons fc rest ih =>
    by_cases hn : fc.name = ("google_search").data <;>
      simp [logEvents, logTrace, gen_bind_run, emit_run, gen_pure_run, hn, ih]

/-- Run characterization of `chunkEvents`. -/
theorem chunkEvents_run (c : StreamChunk) (s : List StreamEvent) :
    chunkEvents c s = (.ok (), s ++ chunkTrace1 c) := by
  cases hx : c.text with
  | none => simp [chunkEvents, chunkTrace1, gen_bind_run, gen_pure_run, hx, logEvents_run]
  | some x =>
    by_cases hxe : x = [] <;>
      simp [chunkEvents, chunkTrace1, gen_bind_run, gen_pure_run, emit_run, hx, hxe,
        logEvents_run]

/-- Run characterization of `consumeEvents`. -/
theorem consumeEvents_run (l : List StreamChunk) (s : List StreamEvent) :
    consumeEvents l s = (.ok (), s ++ chunkTrace l) := by
  induction l generalizing s with
  | nil => simp [consumeEvents, chunkTrace, gen_pure_run]
  | cons c rest ih =>
    simp [consumeEvents, chunkTrace, gen_bind_run, chunkEvents_run, ih]

/-- Run characterization of `gatherEvents`: the verdict is `gatherOk`,
the events are `gatherTrace`. -/
theorem gatherEvents_run (env : Env) (n : Nat) :
    ∀ (i total : Nat) (s : List StreamEvent),
      gatherEvents env i n total s = (gatherOk env i n, s ++ gatherTrace env i n total) := by
  induction n with
  | zero => intro i total s; simp [gatherEvents, gatherOk, gatherTrace, gen_pure_run]
  | succ n ih =>
    intro i total s
    cases hg : env.gather i with
    | ok r =>
      simp [gatherEvents, gatherOk, gatherTrace, gen_bind_run, emit_run, liftE_run, hg,
        Except.map, ih]
    | error e =>
      simp [gatherEvents, gatherOk, gatherTrace, gen_bind_run, emit_run, liftE_run, hg,
        Except.map]

/-- Run characterization of the deep prelude. -/
theorem deepPart_run (env : Env) (s : List StreamEvent) :
    deepPart env s = (deepChecks env true, s ++ deepTrace env) := by
  cases hp : env.passesParse with
  | error e =>
    simp [deepPart, deepChecks, deepTrace, gen_bind_run, emit_run, liftE_run, hp]
  | ok p =>
    cases hg : gatherOk env 0 p with
    | error e =>
      simp [deepPart, deepChecks, deepTrace, gen_bind_run, emit_run, liftE_run, hp,
        gatherEvents_run, hg]
    | ok _ =>
      cases hm : env.minParse with
      | error e =>
        simp [deepPart, deepChecks, deepTrace, gen_bind_run, emit_run, liftE_run, hp,
          gatherEvents_run, hg, hm]
      | ok _ =>
        simp [deepPart, deepChecks, deepTrace, gen_bind_run, emit_run, liftE_run, hp,
          gatherEvents_run, hg, hm, waitEvents_run]

/-- Run characterization of the regeneration branch. -/
theorem regenPart_run (env : Env) (s : List StreamEvent) :
    regenPart env s = (regenResult env, s ++ [.status refiningS]) := by
  cases hr : env.regenErr with
  | some e =>
    simp [regenPart, regenResult, optErr, gen_bind_run, emit_run, liftE_run, hr]
  | none =>
    by_cases h2 : (regenResolved env).2 = [] <;>
      simp [regenPart, regenResult, optErr, gen_bind_run, emit_run, liftE_run,
        gen_pure_run, hr, h2]

/-- Run characterization of the whole body: the verdict is `resultOf`,
the events are `chatEvents`. -/
theorem chatBody_run (env : Env) (req : PyChatRequest) (s : List StreamEvent) :
    chatBody env req s = (resultOf env req, s ++ chatEvents env req) := by
  cases hd : wantsDeepResearch (lastContent req) with
  | false =>
    have hchk : deepChecks env false = .ok () := rfl
    cases hme : env.mainErr with
    | some e =>
      simp [chatBody, resultOf, chatEvents, optErr, gen_bind_run, emit_run, liftE_run,
        gen_pure_run, hd, hchk, consumeEvents_run, hme]
    | none =>
      by_cases hsr : mainShouldRegen env false <;>
        simp [chatBody, resultOf, chatEvents, optErr, gen_bind_run, emit_run, liftE_run,
          gen_pure_run, hd, hchk, consumeEvents_run, hme, hsr, regenPart_run]
  | true =>
    cases hchk : deepChecks env true with
    | error e =>
      simp [chatBody, resultOf, chatEvents, gen_bind_run, emit_run, liftE_run,
        gen_pure_run, hd, deepPart_run, hchk]
    | ok _ =>
      cases hme : env.mainErr with
      | some e =>
        simp [chatBody, resultOf, chatEvents, optErr, gen_bind_run, emit_run, liftE_run,
          gen_pure_run, hd, deepPart_run, hchk, consumeEvents_run, hme]
      | none =>
        by_cases hsr : mainShouldRegen env true <;>
          simp [chatBody, resultOf, chatEvents, optErr, gen_bind_run, emit_run, liftE_run,
            gen_pure_run, hd, deepPart_run, hchk, consumeEvents_run, hme, hsr,
            regenPart_run]

/- ------------------------------------------------------------------ -/
/-! ## C1: the event stream ends in exactly one terminal event -/

/-- MinTimeWait events are non-terminal. -/
theorem waitTrace_nonterminal (l : List Nat) :
    ∀ e ∈ waitTrace l, isTerminal e = false := by
  induction l with
  | nil => simp [waitTrace]
  | cons r rest ih =>
    intro e he
    rcases List.mem_cons.mp he with h | h
    · subst h; simp [isTerminal]
    · exact ih e h

/-- Search-log events are non-terminal. -/
theorem logTrace_nonterminal (l : List SearchCall) :
    ∀ e ∈ logTrace l, isTerminal e = false := by
  induction l with
  | nil => simp [logTrace]
  | cons fc rest ih =>
    intro e he
    simp only [logTrace, List.mem_append] at he
    rcases he with h | h
    · by_cases hn : fc.name = ("google_search").data <;> simp [hn] at h
      subst h; simp [isTerminal]
    · exact ih e h

/-- Per-chunk events are non-terminal. -/
theorem chunkTrace1_nonterminal (c : StreamChunk) :
    ∀ e ∈ chunkTrace1 c, isTerminal e = false := by
  intro e he
  simp only [chunkTrace1, List.mem_append] at he
  rcases he with h | h
  · cases hx : c.text with
    | none => simp [hx] at h
    | some x =>
      rw [hx] at h
      by_cases hxe : x = [] <;> simp [hxe] at h
      subst h; simp [isTerminal]
  · exact logTrace_nonterminal c.calls e h

/-- Streaming-loop events are non-terminal. -/
theorem chunkTrace_nonterminal (l : List StreamChunk) :
    ∀ e ∈ chunkTrace l, isTerminal e = false := by
  induction l with
  | nil => simp [chunkTrace]
  | cons c rest ih =>
    intro e he
    simp only [chunkTrace, List.mem_append] at he
    rcases he with h | h
    · exact chunkTrace1_nonterminal c e h
    · exact ih e h

/-- Gathering-loop events are non-terminal. -/
theorem gatherTrace_nonterminal (env : Env) (n : Nat) :
    ∀ (i total : Nat), ∀ e ∈ gatherTrace env i n total, isTerminal e = false := by
  induction n with
  | zero => intro i total e he; simp [gatherTrace] at he
  | succ n ih =>
    intro i total e he
    simp only [gatherTrace] at he
    rcases List.mem_cons.mp he with h | h
    · subst h; simp [isTerminal]
    · cases hg : env.gather i with
      | ok r => rw [hg] at h; exact ih (i + 1) total e h
      | error er => rw [hg] at h; simp at h

/-- Deep-prelude events are non-terminal. -/
theorem deepTrace_nonterminal (env : Env) :
    ∀ e ∈ deepTrace env, isTerminal e = false := by
  intro e he
  simp only [deepTrace] at he
  rcases List.mem_cons.mp he with h | h
  · subst h; simp [isTerminal]
  · cases hp : env.passesParse with
    | error er => rw [hp] at h; simp at h
    | ok p =>
      rw [hp] at h
      simp only [List.mem_append] at h
      rcases h with h | h
      · exact gatherTrace_nonterminal env p 0 p e h
      · cases hg : gatherOk env 0 p with
        | error er => rw [hg] at h; simp at h
        | ok _ =>
          rw [hg] at h
          cases hm : env.minParse with
          | error er => rw [hm] at h; simp at h
          | ok _ => rw [hm] at h; exact waitTrace_nonterminal env.waitRemaining e h

/-- Every event the body emits is non-terminal. -/
theorem chatEvents_nonterminal (env : Env) (req : PyChatRequest) :
    ∀ e ∈ chatEvents env req, isTerminal e = false := by
  intro e he
  simp only [chatEvents] at he
  rcases List.mem_cons.mp he with h | h
  · subst h; simp [isTerminal]
  · simp only [List.mem_append] at h
    rcases h with h | h
    · by_cases hd : wantsDeepResearch (lastContent req) <;> simp [hd] at h
      exact deepTrace_nonterminal env e h
    · cases hchk : deepChecks env (wantsDeepResearch (lastContent req)) with
      | error er => rw [hchk] at h; simp at h
      | ok _ =>
        rw [hchk] at h
        simp only [List.mem_append] at h
        rcases h with h | h
        · exact chunkTrace_nonterminal env.mainChunks e h
        · cases hme : env.mainErr with
          | some er => rw [hme] at h; simp [optErr] at h
          | none =>
            rw [hme] at h
            simp only [optErr] at h
            by_cases hsr : mainShouldRegen env (wantsDeepResearch (lastContent req)) <;>
              simp [hsr] at h
            subst h; simp [isTerminal]

/-- The fetch oracle used by concrete scenarios: the identity landing. -/
def fetchId : Nat → PyStr → Except Unit PyStr := fun _ u => .ok u

/-- A gathering oracle that is never consulted in the scenarios. -/
def gatherNone : Nat → Except PyStr GatherRes := fun _ => .error (("unused").data)

/-- A benign conversational environment template. -/
def envBase : Env where
  passesParse := .ok 2
  gather := gatherNone
  minParse := .ok ()
  waitRemaining := []
  mainChunks := []
  mainErr := none
  fetch1 := fetchId
  regenChunks := []
  regenErr := none
  fetch2 := fetchId
  repairCall := .ok none

/-- A chunk carrying only a text fragment. -/
def tokenChunk (t : PyStr) : StreamChunk := ⟨[], none, some t, []⟩

/-- The conversational request `"What is RNA?"` (no deep keyword). -/
def reqRna : PyChatRequest := ⟨[⟨("user").data, ("What is RNA?").data⟩]⟩

/-- C1's raising scenario: three token chunks, then the stream raises. -/
def envC1 : Env :=
  { envBase with
    mainChunks :=
      [tokenChunk (("The ").data), tokenChunk (("stream ").data),
       tokenChunk (("dies.").data)],
    mainErr := some (("model stream failed").data) }

/-- C1: every execution's event sequence ends in exactly one terminal
event (`final` or `error`), with nothing after it and no terminal event
before it; and a model stream that raises after emitting 3 `token`
events yields exactly those three `token` events followed by one
terminal `error` — never a `final`. -/
theorem c1_terminal_event_discipline :
    (∀ (env : Env) (req : PyChatRequest),
      ∃ pre last, chat_stream env req = pre ++ [last] ∧ isTerminal last = true ∧
        ∀ e ∈ pre, isTerminal e = false) ∧
    chat_stream envC1 reqRna =
      [.status analyzingS, .token (("The ").data), .token (("stream ").data),
       .token (("dies.").data), .error (("model stream failed").data)] := by
  constructor
  · intro env req
    unfold chat_stream
    rw [chatBody_run]
    cases hr : resultOf env req with
    | ok r =>
      exact ⟨chatEvents env req, .final r.1 r.2, by simp, rfl,
        chatEvents_nonterminal env req⟩
    | error e =>
      exact ⟨chatEvents env req, .error e, by simp, rfl,
        chatEvents_nonterminal env req⟩
  · rfl

/-- Witness for C1: the terminal-discipline clause instantiated at the
raising scenario. -/
theorem c1_terminal_event_discipline_witness :
    ∃ pre last, chat_stream envC1 reqRna = pre ++ [last] ∧ isTerminal last = true ∧
      ∀ e ∈ pre, isTerminal e = false :=
  c1_terminal_event_discipline.1 envC1 reqRna

/- ------------------------------------------------------------------ -/
/-! ## Characterizing `buildSourceMap` -/

/-- The position of the first occurrence of `u` (0-based). -/
def firstIdx (l : List PyStr) (u : PyStr) : Nat :=
  match l with
  | [] => 0
  | x :: xs => if x = u then 0 else firstIdx xs u + 1

/-- The non-null, non-empty URLs of the input, in order (the entries the
`_build_source_map` loop does not skip). -/
def stripNulls (l : List (Option PyStr)) : List PyStr :=
  l.filterMap (fun o =>
    match o with
    | some u => if u = [] then none else some u
    | none => none)

/-- The `seen` dict as a function of the source list: each URL paired
with its 1-based display index, starting at `k + 1`. -/
def mkSeenFrom (k : Nat) : List PyStr → List (PyStr × Nat)
  | [] => []
  | x :: xs => (x, k + 1) :: mkSeenFrom (k + 1) xs

/-- Association-list lookup distributes over append. -/
theorem lookup_append {α β : Type} [BEq α] (l1 l2 : List (α × β)) (a : α) :
    List.lookup a (l1 ++ l2) =
      match List.lookup a l1 with
      | some v => some v
      | none => List.lookup a l2 := by
  induction l1 with
  | nil => simp [List.lookup]
  | cons p rest ih =>
    by_cases h : a == p.1
    · simp [List.lookup, h]
    · simp only [List.cons_append, List.lookup]
      rw [Bool.of_not_eq_true h]
      simpa using ih

/-- `mkSeenFrom` over a snoc. -/
theorem mkSeenFrom_append (k : Nat) (a : List PyStr) (u : PyStr) :
    mkSeenFrom k (a ++ [u]) = mkSeenFrom k a ++ [(u, k + a.length + 1)] := by
  induction a generalizing k with
  | nil => simp [mkSeenFrom]
  | cons x xs ih =>
    have h1 : k + (xs.length + 1) + 1 = k + 1 + xs.length + 1 := by omega
    simp only [List.cons_append, mkSeenFrom, List.append_eq, ih, List.length_cons, h1]

/-- Lookup in the `seen` dict of a duplicate-free source list. -/
theorem lookup_mkSeenFrom (sources : List PyStr) (k : Nat) (u : PyStr) :
    List.lookup u (mkSeenFrom k sources) =
      if u ∈ sources then some (k + firstIdx sources u + 1) else none := by
  induction sources generalizing k with
  | nil => simp [mkSeenFrom, List.lookup]
  | cons x xs ih =>
    by_cases hx : x = u
    · subst hx
      simp [mkSeenFrom, List.lookup, firstIdx]
    · have hne : (u == x) = false := by
        rw [beq_eq_false_iff_ne]
        exact Ne.symm hx
      simp only [mkSeenFrom, List.lookup, hne, ih]
      by_cases hm : u ∈ xs
      · simp [hm, hx, firstIdx, Ne.symm hx]
        omega
      · have : u ∉ x :: xs := by
          simp [hm, Ne.symm hx]
        simp [hm, this]

/-- `firstIdx` ignores a suffix when the element occurs in the front. -/
theorem firstIdx_append_of_mem (a b : List PyStr) (u : PyStr) (h : u ∈ a) :
    firstIdx (a ++ b) u = firstIdx a u := by
  induction a with
  | nil => simp at h
  | cons x xs ih =>
    by_cases hx : x = u
    · simp [firstIdx, hx]
    · rcases List.mem_cons.mp h with h' | h'
      · exact absurd h'.symm hx
      · simp [firstIdx, hx, ih h']

/-- `firstIdx` of a freshly appended element. -/
theorem firstIdx_append_self (a : List PyStr) (u : PyStr) (h : u ∉ a) :
    firstIdx (a ++ [u]) u = a.length := by
  induction a with
  | nil => simp [firstIdx]
  | cons x xs ih =>
    have hx : x ≠ u := by
      intro hxu
      exact h (hxu ▸ List.mem_cons_self x xs)
    have hxs : u ∉ xs := fun hm => h (List.mem_cons_of_mem x hm)
    simp [firstIdx, hx, ih hxs]

/-- The dedup loop over a concatenation. -/
theorem dedupFirstAux_append (xs ys acc : List PyStr) :
    dedupFirstAux (xs ++ ys) acc = dedupFirstAux ys (dedupFirstAux xs acc) := by
  induction xs generalizing acc with
  | nil => simp [dedupFirstAux]
  | cons x rest ih =>
    by_cases hx : x ∈ acc <;> simp [dedupFirstAux, hx, ih]

/-- Structure of the dedup loop: it appends a duplicate-free selection
of new elements, in order. -/
theorem dedupFirstAux_spec (l : List PyStr) :
    ∀ acc : List PyStr, ∃ ex,
      dedupFirstAux l acc = acc ++ ex ∧ List.Sublist ex l ∧ (∀ u ∈ ex, u ∉ acc) ∧
        (acc.Nodup → (acc ++ ex).Nodup) := by
  induction l with
  | nil => intro acc; exact ⟨[], by simp [dedupFirstAux], by simp, by simp, by simp⟩
  | cons x rest ih =>
    intro acc
    by_cases hx : x ∈ acc
    · obtain ⟨ex, he, hs, hni, hnd⟩ := ih acc
      exact ⟨ex, by simp [dedupFirstAux, hx, he], hs.cons x, hni, hnd⟩
    · obtain ⟨ex, he, hs, hni, hnd⟩ := ih (acc ++ [x])
      refine ⟨x :: ex, ?_, hs.cons₂ x, ?_, ?_⟩
      · simp only [dedupFirstAux, if_neg hx, he]
        simp
      · intro u hu
        rcases List.mem_cons.mp hu with h' | h'
        · exact h' ▸ hx
        · have := hni u h'
          intro hua
          exact this (List.mem_append_left _ hua)
      · intro hacc
        have hconc : (acc ++ [x]).Nodup := by
          rw [List.nodup_append]
          exact ⟨hacc, List.nodup_singleton x, by simpa using hx⟩
        have := hnd hconc
        simpa using this

/-- `dedupFirst` keeps exactly the elements, without duplicates. -/
theorem dedupFirst_nodup (l : List PyStr) : (dedupFirst l).Nodup := by
  obtain ⟨ex, he, _, _, hnd⟩ := dedupFirstAux_spec l []
  have := hnd List.nodup_nil
  simpa [dedupFirst, he] using this

/-- `dedupFirst` is an order-preserving selection of its input. -/
theorem dedupFirst_sublist (l : List PyStr) : List.Sublist (dedupFirst l) l := by
  obtain ⟨ex, he, hs, _, _⟩ := dedupFirstAux_spec l []
  simpa [dedupFirst, he] using hs

/-- Everything from the accumulator or the input survives the dedup loop. -/
theorem mem_dedupFirstAux (l : List PyStr) :
    ∀ (acc : List PyStr) (u : PyStr), u ∈ acc ∨ u ∈ l → u ∈ dedupFirstAux l acc := by
  induction l with
  | nil =>
    intro acc u h
    simp only [dedupFirstAux]
    rcases h with h | h
    · exact h
    · simp at h
  | cons x rest ih =>
    intro acc u h
    by_cases hx : x ∈ acc
    · simp only [dedupFirstAux, if_pos hx]
      apply ih
      rcases h with h | h
      · exact Or.inl h
      · rcases List.mem_cons.mp h with h' | h'
        · exact Or.inl (h' ▸ hx)
        · exact Or.inr h'
    · simp only [dedupFirstAux, if_neg hx]
      apply ih
      rcases h with h | h
      · exact Or.inl (List.mem_append_left _ h)
      · rcases List.mem_cons.mp h with h' | h'
        · exact Or.inl (List.mem_append_right _ (by simp [h']))
        · exact Or.inr h'

/-- Membership is preserved by `dedupFirst`. -/
theorem mem_dedupFirst (l : List PyStr) (u : PyStr) :
    u ∈ dedupFirst l ↔ u ∈ l := by
  constructor
  · intro h
    exact (dedupFirst_sublist l).mem h
  · intro h
    exact mem_dedupFirstAux l [] u (Or.inr h)

/-- Invariant of the `_build_source_map` loop after processing `ldone`:
the sources are the first-occurrence dedup of the kept URLs, `seen`
tabulates their 1-based display indices, and `index_map` answers every
input position per the loop's contract. -/
def BsmInv (ldone : List (Option PyStr)) (st : BsmSt) : Prop :=
  st.sources = dedupFirst (stripNulls ldone) ∧
  st.seen = mkSeenFrom 0 st.sources ∧
  ∀ i : Nat, List.lookup i st.imap =
    match ldone.get? i with
    | some (some u) => if u = [] then none else some (firstIdx st.sources u + 1)
    | _ => none

/-- A non-empty URL read from the input occurs among the kept URLs. -/
theorem mem_stripNulls_of_get (ldone : List (Option PyStr)) (i : Nat) (v : PyStr)
    (h : ldone.get? i = some (some v)) (hv : v ≠ []) : v ∈ stripNulls ldone := by
  have hmem : (some v) ∈ ldone := List.get?_mem h
  rw [stripNulls, List.mem_filterMap]
  exact ⟨some v, hmem, by simp [hv]⟩

/-- `stripNulls` over a snoc. -/
theorem stripNulls_append (ldone : List (Option PyStr)) (o : Option PyStr) :
    stripNulls (ldone ++ [o]) =
      stripNulls ldone ++
        (match o with
         | some u => if u = [] then [] else [u]
         | none => []) := by
  cases o with
  | none => simp [stripNulls]
  | some u =>
    by_cases hu : u = [] <;> simp [stripNulls, hu]

/-- Natural-number `==` is `false` on distinct numbers. -/
theorem nat_beq_false {a b : Nat} (h : a ≠ b) : (a == b) = false :=
  beq_eq_false_iff_ne.mpr h

/-- One step of the loop preserves the invariant. -/
theorem bsmStep_inv (ldone : List (Option PyStr)) (st : BsmSt) (o : Option PyStr)
    (h : BsmInv ldone st) : BsmInv (ldone ++ [o]) (bsmStep st (ldone.length, o)) := by
  obtain ⟨hsrc, hseen, himap⟩ := h
  have hget_lt : ∀ i, i < ldone.length → (ldone ++ [o]).get? i = ldone.get? i := by
    intro i hi
    exact List.get?_append hi
  have hget_eq : (ldone ++ [o]).get? ldone.length = some o := by
    rw [List.get?_append_right (Nat.le_refl _)]
    simp
  have hget_gt : ∀ i, ldone.length < i → (ldone ++ [o]).get? i = none := by
    intro i hi
    apply List.get?_eq_none.mpr
    simp only [List.length_append, List.length_cons, List.length_nil]
    omega
  have hget_old_none : ∀ i, ldone.length ≤ i → ldone.get? i = none := by
    intro i hi
    exact List.get?_eq_none.mpr hi
  -- the common shape of the `index_map` obligation, parameterized by the
  -- (possibly unchanged) appended entry and the new source list
  cases o with
  | none =>
    have hstep : bsmStep st (ldone.length, none) = st := rfl
    rw [hstep]
    refine ⟨by rw [stripNulls_append]; simpa using hsrc, hseen, ?_⟩
    intro i
    rcases Nat.lt_trichotomy i ldone.length with hi | hi | hi
    · rw [hget_lt i hi, himap i]
    · rw [hi, hget_eq, himap ldone.length, hget_old_none ldone.length (Nat.le_refl _)]
    · rw [hget_gt i hi, himap i, hget_old_none i (Nat.le_of_lt hi)]
  | some u =>
    by_cases hu : u = []
    · subst hu
      have hstep : bsmStep st (ldone.length, some []) = st := rfl
      rw [hstep]
      refine ⟨by rw [stripNulls_append]; simpa using hsrc, hseen, ?_⟩
      intro i
      rcases Nat.lt_trichotomy i ldone.length with hi | hi | hi
      · rw [hget_lt i hi, himap i]
      · rw [hi, hget_eq, himap ldone.length, hget_old_none ldone.length (Nat.le_refl _)]
        simp
      · rw [hget_gt i hi, himap i, hget_old_none i (Nat.le_of_lt hi)]
    · have hdedup : dedupFirst (stripNulls (ldone ++ [some u])) =
          dedupFirstAux [u] st.sources := by
        rw [stripNulls_append]
        simp only [if_neg hu]
        rw [dedupFirst, dedupFirstAux_append, hsrc, dedupFirst]
      have hlook := lookup_mkSeenFrom st.sources 0 u
      by_cases hmem : u ∈ st.sources
      · have hseen_u : List.lookup u st.seen = some (firstIdx st.sources u + 1) := by
          rw [hseen, hlook, if_pos hmem]
          simp
        have hstep : bsmStep st (ldone.length, some u) =
            { st with imap := st.imap ++ [(ldone.length, firstIdx st.sources u + 1)] } := by
          simp [bsmStep, hu, hseen_u]
        rw [hstep]
        refine ⟨?_, hseen, ?_⟩
        · show st.sources = dedupFirst (stripNulls (ldone ++ [some u]))
          rw [hdedup]
          simp [dedupFirstAux, hmem]
        · intro i
          show List.lookup i (st.imap ++ [(ldone.length, firstIdx st.sources u + 1)]) = _
          rw [lookup_append, himap i]
          rcases Nat.lt_trichotomy i ldone.length with hi | hi | hi
          · rw [hget_lt i hi]
            cases hgi : ldone.get? i with
            | none => simp [List.lookup, nat_beq_false (show i ≠ ldone.length by omega)]
            | some oi =>
              cases oi with
              | none => simp [List.lookup, nat_beq_false (show i ≠ ldone.length by omega)]
              | some v =>
                by_cases hv : v = [] <;>
                  simp [hv, List.lookup, nat_beq_false (show i ≠ ldone.length by omega)]
          · rw [hi, hget_eq, hget_old_none ldone.length (Nat.le_refl _)]
            simp [List.lookup, hu]
          · rw [hget_gt i hi, hget_old_none i (Nat.le_of_lt hi)]
            simp [List.lookup, nat_beq_false (show i ≠ ldone.length by omega)]
      · have hseen_u : List.lookup u st.seen = none := by
          rw [hseen, hlook, if_neg hmem]
        have hstep : bsmStep st (ldone.length, some u) =
            { sources := st.sources ++ [u],
              seen := st.seen ++ [(u, st.sources.length + 1)],
              imap := st.imap ++ [(ldone.length, st.sources.length + 1)] } := by
          simp [bsmStep, hu, hseen_u]
        rw [hstep]
        have hmem_front : ∀ (v : PyStr) (i : Nat), ldone.get? i = some (some v) → v ≠ [] →
            v ∈ st.sources := by
          intro v i hgi hv
          rw [hsrc, mem_dedupFirst]
          exact mem_stripNulls_of_get ldone i v hgi hv
        refine ⟨?_, ?_, ?_⟩
        · show st.sources ++ [u] = dedupFirst (stripNulls (ldone ++ [some u]))
          rw [hdedup]
          simp [dedupFirstAux, hmem]
        · show st.seen ++ [(u, st.sources.length + 1)] = mkSeenFrom 0 (st.sources ++ [u])
          rw [hseen, mkSeenFrom_append]
          simp
        · intro i
          show List.lookup i (st.imap ++ [(ldone.length, st.sources.length + 1)]) = _
          rw [lookup_append, himap i]
          rcases Nat.lt_trichotomy i ldone.length with hi | hi | hi
          · rw [hget_lt i hi]
            cases hgi : ldone.get? i with
            | none => simp [List.lookup, nat_beq_false (show i ≠ ldone.length by omega)]
            | some oi =>
              cases oi with
              | none => simp [List.lookup, nat_beq_false (show i ≠ ldone.length by omega)]
              | some v =>
                by_cases hv : v = []
                · simp [hv, List.lookup, nat_beq_false (show i ≠ ldone.length by omega)]
                · have hvmem := hmem_front v i hgi hv
                  simp only [if_neg hv]
                  rw [firstIdx_append_of_mem _ _ _ hvmem]
          · rw [hi, hget_eq, hget_old_none ldone.length (Nat.le_refl _)]
            simp only [if_neg hu, List.lookup]
            rw [firstIdx_append_self _ _ hmem]
            simp
          · rw [hget_gt i hi, hget_old_none i (Nat.le_of_lt hi)]
            simp [List.lookup, nat_beq_false (show i ≠ ldone.length by omega)]

/-- The folded loop preserves the invariant over any tail. -/
theorem bsm_fold (l : List (Option PyStr)) :
    ∀ (ldone : List (Option PyStr)) (st : BsmSt), BsmInv ldone st →
      BsmInv (ldone ++ l) ((List.enumFrom ldone.length l).foldl bsmStep st) := by
  induction l with
  | nil => intro ldone st h; simpa using h
  | cons o rest ih =>
    intro ldone st h
    have h1 := bsmStep_inv ldone st o h
    have h2 := ih (ldone ++ [o]) (bsmStep st (ldone.length, o)) h1
    simp only [List.length_append, List.length_cons, List.length_nil] at h2
    simp only [List.enumFrom, List.foldl_cons]
    simpa [List.append_assoc] using h2

/-- The `_build_source_map` invariant at the end of the loop. -/
theorem buildSourceMap_inv (l : List (Option PyStr)) :
    BsmInv l (l.enum.foldl bsmStep ⟨[], [], []⟩) := by
  have h0 : BsmInv [] (⟨[], [], []⟩ : BsmSt) := by
    refine ⟨rfl, rfl, ?_⟩
    intro i
    simp [List.lookup, stripNulls]
  have := bsm_fold l [] ⟨[], [], []⟩ h0
  simpa [List.enum] using this

/-- Without empty strings, the kept URLs are exactly the non-null ones. -/
theorem stripNulls_eq_filterMap (l : List (Option PyStr)) (h : some [] ∉ l) :
    stripNulls l = l.filterMap id := by
  induction l with
  | nil => rfl
  | cons o rest ih =>
    have hrest : some [] ∉ rest := fun hm => h (List.mem_cons_of_mem o hm)
    cases o with
    | none => simp [stripNulls, List.filterMap_cons] at ih ⊢; exact ih hrest
    | some u =>
      have hu : u ≠ [] := by
        intro hu
        exact h (hu ▸ List.mem_cons_self _ _)
      simp [stripNulls, List.filterMap_cons, if_neg hu] at ih ⊢
      exact ih hrest

/-- C3: `buildSourceMap` walks the input in order, skips nulls without
producing a mapping, returns each distinct URL exactly once in
first-occurrence order, and maps every position holding a URL to the
1-based display index of that URL's first occurrence in the source
list. -/
theorem c3_build_source_map (l : List (Option PyStr)) (h : some [] ∉ l) :
    (buildSourceMap l).1 = dedupFirst (l.filterMap id) ∧
    (buildSourceMap l).1.Nodup ∧
    (∀ u : PyStr, u ∈ (buildSourceMap l).1 ↔ some u ∈ l) ∧
    (∀ (i : Nat) (u : PyStr), l.get? i = some (some u) →
      List.lookup i (buildSourceMap l).2 =
        some (firstIdx (buildSourceMap l).1 u + 1)) ∧
    (∀ i : Nat, l.get? i = some none → List.lookup i (buildSourceMap l).2 = none) := by
  obtain ⟨hsrc, _, himap⟩ := buildSourceMap_inv l
  have h1 : (buildSourceMap l).1 = dedupFirst (l.filterMap id) := by
    show (l.enum.foldl bsmStep ⟨[], [], []⟩).sources = _
    rw [hsrc, stripNulls_eq_filterMap l h]
  refine ⟨h1, ?_, ?_, ?_, ?_⟩
  · rw [h1]; exact dedupFirst_nodup _
  · intro u
    rw [h1, mem_dedupFirst, List.mem_filterMap]
    constructor
    · rintro ⟨a, ha, hid⟩
      cases a with
      | none => simp [id] at hid
      | some v => simp [id] at hid; exact hid ▸ ha
    · intro hm
      exact ⟨some u, hm, rfl⟩
  · intro i u hget
    have hu : u ≠ [] := by
      intro hu
      exact h (hu ▸ List.get?_mem hget)
    have := himap i
    rw [hget] at this
    simp only [if_neg hu] at this
    exact this
  · intro i hget
    have := himap i
    rw [hget] at this
    exact this

/-- Witness for C3 at a concrete input with a duplicate URL and a null. -/
theorem c3_build_source_map_witness :
    (some [] ∉ ([some (("https://b.x").data), none, some (("https://a.x").data),
        some (("https://b.x").data)] : List (Option PyStr))) ∧
    (buildSourceMap [some (("https://b.x").data), none, some (("https://a.x").data),
        some (("https://b.x").data)]).1 =
      dedupFirst ([some (("https://b.x").data), none, some (("https://a.x").data),
        some (("https://b.x").data)].filterMap id) :=
  ⟨by decide, (c3_build_source_map _ (by decide)).1⟩

/- ------------------------------------------------------------------ -/
/-! ## C6: redirect resolution is positionwise and fail-soft -/

/-- `enumFrom` lookups shift the index. -/
theorem enumFrom_get (l : List PyStr) :
    ∀ (k i : Nat), (List.enumFrom k l).get? i = (l.get? i).map (fun a => (k + i, a)) := by
  induction l with
  | nil => intro k i; simp [List.enumFrom]
  | cons x xs ih =>
    intro k i
    cases i with
    | zero => simp [List.enumFrom]
    | succ n =>
      simp only [List.enumFrom, List.get?_cons_succ, ih (k + 1) n]
      cases xs.get? n <;> simp
      omega

/-- C6: `_resolve_redirects` returns one entry per input position, in
order; an empty input yields an empty list; a failed fetch yields the
original URL unchanged at that position (the operation never raises —
it is total — and never drops an entry, since the length is
preserved). -/
theorem c6_resolve_positionwise (fetch : Nat → PyStr → Except Unit PyStr)
    (urls : List PyStr) :
    (resolveRedirects fetch urls).length = urls.length ∧
    resolveRedirects fetch [] = [] ∧
    (∀ (i : Nat) (h : i < urls.length),
      (resolveRedirects fetch urls).get? i =
        some (match fetch i (urls.get ⟨i, h⟩) with
              | .ok r => r
              | .error _ => urls.get ⟨i, h⟩)) := by
  refine ⟨?_, rfl, ?_⟩
  · by_cases hu : urls = []
    · subst hu; rfl
    · simp [resolveRedirects, hu, List.enum]
  · intro i h
    have hu : urls ≠ [] := by
      intro he
      rw [he] at h
      simp at h
    have hget : urls.get? i = some (urls.get ⟨i, h⟩) := List.get?_eq_get h
    simp only [resolveRedirects, if_neg hu, List.enum]
    rw [List.get?_map, enumFrom_get urls 0 i, hget]
    simp

/-- Witness for C6: a two-URL list where the second fetch fails. -/
theorem c6_resolve_positionwise_witness :
    (0 < ([("https://a.x").data, ("https://b.x").data] : List PyStr).length) ∧
    (resolveRedirects
        (fun i _ => if i = 0 then .ok (("https://landed.x").data) else .error ())
        [("https://a.x").data, ("https://b.x").data]).get? 0 =
      some (match (fun (i : Nat) (_ : PyStr) =>
              if i = 0 then (Except.ok (("https://landed.x").data) : Except Unit PyStr)
              else .error ()) 0
              (([("https://a.x").data, ("https://b.x").data] : List PyStr).get ⟨0, by decide⟩) with
            | .ok r => r
            | .error _ =>
              ([("https://a.x").data, ("https://b.x").data] : List PyStr).get ⟨0, by decide⟩) :=
  ⟨by decide,
    (c6_resolve_positionwise
      (fun i _ => if i = 0 then .ok (("https://landed.x").data) else .error ())
      [("https://a.x").data, ("https://b.x").data]).2.2 0 (by decide)⟩

/- ------------------------------------------------------------------ -/
/-! ## C7/C8: the citation inserter's frame and clamping behaviour -/

/-- Clamp a support's `endOffset` into `[0, len]`. -/
def clampSupport (len : Nat) (s : RawSupport) : RawSupport :=
  ⟨s.startOff, s.endOff.map (fun e => max 0 (min e (len : Int))), s.indices⟩

/-- Clamping is idempotent at the `int(end)` conversion. -/
theorem intClamp_idem (e : Int) (L : Nat) :
    intClamp (max 0 (min e (L : Int))) L = intClamp e L := by
  unfold intClamp
  omega

/-- The clamped position never exceeds the text length. -/
theorem intClamp_le (e : Int) (L : Nat) : intClamp e L ≤ L := by
  unfold intClamp
  omega

/-- Pre-clamping the supports does not change the `inserts` map. -/
theorem buildInserts_clamp (len : Nat) (supports : List RawSupport)
    (im : List (Nat × Nat)) :
    buildInserts len (supports.map (clampSupport len)) im =
      buildInserts len supports im := by
  unfold buildInserts
  rw [List.foldl_map]
  congr 1
  funext acc sup
  cases he : sup.endOff with
  | none => simp [ciStep, clampSupport, he]
  | some e => simp [ciStep, clampSupport, he, intClamp_idem]

/-- The keys after an `insAdd`. -/
theorem insAdd_map_fst (pos : Nat) (nums : List Nat) :
    ∀ acc : List (Nat × List Nat),
      (insAdd pos nums acc).map Prod.fst =
        if pos ∈ acc.map Prod.fst then acc.map Prod.fst
        else acc.map Prod.fst ++ [pos] := by
  intro acc
  induction acc with
  | nil => simp [insAdd]
  | cons q rest ih =>
    by_cases hq : q.1 = pos
    · cases q
      simp_all [insAdd]
    · cases q with
    | mk qk qv =>
      simp only at hq
      simp only [insAdd, if_neg hq, List.map_cons, ih]
      by_cases hmem : pos ∈ rest.map Prod.fst
      · simp [hmem, Ne.symm hq]
      · simp [hmem, Ne.symm hq]

/-- `insAdd` keeps every entry's number set nonempty. -/
theorem insAdd_snd_ne (pos : Nat) (nums : List Nat) (hn : nums ≠ []) :
    ∀ acc : List (Nat × List Nat), (∀ q ∈ acc, q.2 ≠ []) →
      ∀ q ∈ insAdd pos nums acc, q.2 ≠ [] := by
  intro acc
  induction acc with
  | nil =>
    intro _ q hq
    simp only [insAdd] at hq
    rcases List.mem_singleton.mp hq with rfl
    exact hn
  | cons r rest ih =>
    intro hacc q hq
    by_cases hr : r.1 = pos
    · cases r with
      | mk rk rv =>
        simp only at hr
        simp only [insAdd, if_pos hr] at hq
        rcases List.mem_cons.mp hq with rfl | hq'
        · simp only
          intro hcon
          rcases List.append_eq_nil.mp hcon with ⟨-, h2⟩
          exact hn h2
        · exact hacc q (List.mem_cons_of_mem _ hq')
    · cases r with
      | mk rk rv =>
        simp only at hr
        simp only [insAdd, if_neg hr] at hq
        rcases List.mem_cons.mp hq with rfl | hq'
        · exact hacc _ (List.mem_cons_self _ _)
        · exact ih (fun p hp => hacc p (List.mem_cons_of_mem _ hp)) q hq'

/-- Membership in the key list gives an entry with a bound. -/
theorem key_le_of_mem (acc : List (Nat × List Nat)) (len : Nat)
    (hb : ∀ q ∈ acc, q.1 ≤ len) (k : Nat) (hk : k ∈ acc.map Prod.fst) : k ≤ len := by
  rcases List.mem_map.mp hk with ⟨q, hq, rfl⟩
  exact hb q hq

/-- Invariants of the `inserts` map: distinct keys, all within the text,
all with a nonempty number set. -/
theorem buildInserts_inv (len : Nat) (supports : List RawSupport)
    (im : List (Nat × Nat)) :
    ((buildInserts len supports im).map Prod.fst).Nodup ∧
    ∀ q ∈ buildInserts len supports im, q.1 ≤ len ∧ q.2 ≠ [] := by
  suffices h : ∀ (sups : List RawSupport) (acc : List (Nat × List Nat)),
      (acc.map Prod.fst).Nodup → (∀ q ∈ acc, q.1 ≤ len ∧ q.2 ≠ []) →
      ((sups.foldl (ciStep len im) acc).map Prod.fst).Nodup ∧
        ∀ q ∈ sups.foldl (ciStep len im) acc, q.1 ≤ len ∧ q.2 ≠ [] by
    exact h supports [] (by simp) (by simp)
  intro sups
  induction sups with
  | nil => intro acc h1 h2; exact ⟨h1, h2⟩
  | cons sup rest ih =>
    intro acc h1 h2
    apply ih
    · cases he : sup.endOff with
      | none => simpa [ciStep, he] using h1
      | some e =>
        by_cases hn : sup.indices.filterMap (fun i => imapLookup im i) = []
        · simpa [ciStep, he, hn] using h1
        · simp only [ciStep, he, if_neg hn]
          rw [insAdd_map_fst]
          by_cases hmem : intClamp e len ∈ acc.map Prod.fst
          · simpa [hmem] using h1
          · simp only [if_neg hmem]
            simp only [List.nodup_append]
            exact ⟨h1, List.nodup_singleton _, by simpa using hmem⟩
    · cases he : sup.endOff with
      | none => simpa [ciStep, he] using h2
      | some e =>
        by_cases hn : sup.indices.filterMap (fun i => imapLookup im i) = []
        · simpa [ciStep, he, hn] using h2
        · simp only [ciStep, he, if_neg hn]
          intro q hq
          constructor
          · have hk : q.1 ∈ (insAdd (intClamp e len) _ acc).map Prod.fst :=
              List.mem_map_of_mem Prod.fst hq
            rw [insAdd_map_fst] at hk
            by_cases hmem : intClamp e len ∈ acc.map Prod.fst
            · rw [if_pos hmem] at hk
              exact key_le_of_mem acc len (fun r hr => (h2 r hr).1) _ hk
            · rw [if_neg hmem] at hk
              rcases List.mem_append.mp hk with hk' | hk'
              · exact key_le_of_mem acc len (fun r hr => (h2 r hr).1) _ hk'
              · rw [List.mem_singleton.mp hk']
                exact intClamp_le e len
          · exact insAdd_snd_ne _ _ hn acc (fun r hr => (h2 r hr).2) q hq

/-- C8: out-of-range `endOffset`s behave exactly as their clamp into
`[0, len(text)]` — pre-clamping every support leaves the output
unchanged — and every recorded insertion position lies within
`[0, len(text)]`; the function is total, so it never raises. -/
theorem c8_insert_citations_clamps (text : PyStr) (supports : List RawSupport)
    (im : List (Nat × Nat)) :
    insertCitations text supports im =
      insertCitations text (supports.map (clampSupport text.length)) im ∧
    ∀ q ∈ buildInserts text.length supports im, q.1 ≤ text.length := by
  constructor
  · by_cases hs : supports = []
    · subst hs; rfl
    · by_cases hi : im = []
      · subst hi
        simp [insertCitations, hs]
      · have hms : supports.map (clampSupport text.length) ≠ [] := by
          simpa using hs
        simp only [insertCitations, buildInserts_clamp]
        simp [hs, hi, hms]
  · intro q hq
    exact ((buildInserts_inv text.length supports im).2 q hq).1

/-- The slice `text[a:b]` of the original text. -/
def sliceAt (text : PyStr) (a b : Nat) : PyStr := (text.drop a).take (b - a)

/-- Interleave slices of the *original* text (cut at the offsets `ps`,
continuing from `last`) with the inserted strings `ms`. -/
def weave (text : PyStr) : Nat → List Nat → List PyStr → PyStr
  | last, [], _ => text.drop last
  | last, p :: ps, m :: ms => sliceAt text last p ++ m ++ weave text p ps ms
  | _, _ :: _, [] => []

/-- A space followed by a nonempty run of bracketed display numbers:
the only material `_insert_citations` ever adds. -/
def IsCitationMarker (m : PyStr) : Prop :=
  ∃ ns : List Nat, ns ≠ [] ∧
    m = ' ' :: (ns.map (fun n => '[' :: (natStr n ++ ("]").data))).flatten

/-- The reconstruction loop is a weave of original-text slices with the
markers, offsets read against the original text. -/
theorem emitLoop_eq_weave (text : PyStr) (entries : List (Nat × List Nat)) :
    ∀ last : Nat,
      emitLoop text last entries =
        weave text last (entries.map Prod.fst)
          (entries.map (fun q => markerOf (sortNatSet q.2))) := by
  induction entries with
  | nil => intro last; rfl
  | cons q rest ih =>
    intro last
    cases q with
    | mk pos ns => simp [emitLoop, weave, sliceAt, ih]

/-- Adjacent original-text slices rejoin: `text[last:p] ++ text[p:]`
is `text[last:]` whenever `last ≤ p`. -/
theorem slice_rejoin (text : PyStr) (last p : Nat) (h : last ≤ p) :
    sliceAt text last p ++ text.drop p = text.drop last := by
  have hdr : text.drop p = (text.drop last).drop (p - last) := by
    rw [List.drop_drop]
    congr 1
    omega
  rw [sliceAt, hdr, List.take_append_drop]

/-- Weaving with empty markers reproduces the original text. -/
theorem weave_empty_markers (text : PyStr) (ps : List Nat) :
    ∀ last : Nat, List.Chain (fun a b => a ≤ b) last ps →
      weave text last ps (List.replicate ps.length []) = text.drop last := by
  induction ps with
  | nil => intro last _; rfl
  | cons p ps' ih =>
    intro last hchain
    rcases List.chain_cons.mp hchain with ⟨hlp, hchain'⟩
    show sliceAt text last p ++ [] ++ weave text p ps' (List.replicate ps'.length []) = _
    rw [List.append_nil, ih p hchain', slice_rejoin text last p hlp]

/-- The suffix of the original text embeds into any weave from the same
offset: the original characters survive in order. -/
theorem drop_sublist_weave (text : PyStr) (ps : List Nat) :
    ∀ (ms : List PyStr) (last : Nat), ms.length = ps.length →
      List.Chain (fun a b => a ≤ b) last ps →
      List.Sublist (text.drop last) (weave text last ps ms) := by
  induction ps with
  | nil => intro ms last _ _; exact List.Sublist.refl _
  | cons p ps' ih =>
    intro ms last hlen hchain
    rcases List.chain_cons.mp hchain with ⟨hlp, hchain'⟩
    cases ms with
    | nil => simp at hlen
    | cons m ms' =>
      have hlen' : ms'.length = ps'.length := by simpa using hlen
      have h1 : List.Sublist (text.drop p) (weave text p ps' ms') := ih ms' p hlen' hchain'
      have h2 : List.Sublist (text.drop p) (m ++ weave text p ps' ms') :=
        h1.trans (List.sublist_append_right m _)
      have h3 : List.Sublist (sliceAt text last p ++ text.drop p)
          (sliceAt text last p ++ (m ++ weave text p ps' ms')) :=
        List.Sublist.append (List.Sublist.refl _) h2
      have h4 : weave text last (p :: ps') (m :: ms') =
          sliceAt text last p ++ (m ++ weave text p ps' ms') := by simp [weave]
      rw [(slice_rejoin text last p hlp).symm, h4]
      exact h3

/-- `insPair` inserts exactly one element. -/
theorem insPair_perm (x : Nat × List Nat) :
    ∀ acc : List (Nat × List Nat), List.Perm (insPair x acc) (x :: acc) := by
  intro acc
  induction acc with
  | nil => simp [insPair]
  | cons y ys ih =>
    by_cases hxy : x.1 < y.1
    · simp [insPair, hxy]
    · simp only [insPair, if_neg hxy]
      have h1 : List.Perm (y :: insPair x ys) (y :: x :: ys) := List.Perm.cons y ih
      exact h1.trans (List.Perm.swap x y ys)

/-- `insPair` into a key-sorted list with a fresh key stays sorted. -/
theorem insPair_sorted (x : Nat × List Nat) :
    ∀ acc : List (Nat × List Nat),
      List.Pairwise (fun a b => a.1 < b.1) acc → (∀ q ∈ acc, q.1 ≠ x.1) →
      List.Pairwise (fun a b => a.1 < b.1) (insPair x acc) := by
  intro acc
  induction acc with
  | nil => intro _ _; simp [insPair]
  | cons y ys ih =>
    intro hp hne
    rcases List.pairwise_cons.mp hp with ⟨hy, hp'⟩
    by_cases hxy : x.1 < y.1
    · simp only [insPair, if_pos hxy]
      refine List.pairwise_cons.mpr ⟨?_, hp⟩
      intro q hq
      rcases List.mem_cons.mp hq with rfl | hq'
      · exact hxy
      · exact Nat.lt_trans hxy (hy q hq')
    · simp only [insPair, if_neg hxy]
      have hyx : y.1 < x.1 := by
        have := hne y (List.mem_cons_self _ _)
        omega
      refine List.pairwise_cons.mpr ⟨?_, ?_⟩
      · intro q hq
        have : q = x ∨ q ∈ ys := by
          have hperm := insPair_perm x ys
          have := hperm.mem_iff.mp hq
          simpa using this
        rcases this with rfl | hq'
        · exact hyx
        · exact hy q hq'
      · exact ih hp' (fun q hq => hne q (List.mem_cons_of_mem _ hq))

/-- `sorted(inserts.keys())` is a permutation of the entries. -/
theorem sortPairs_perm (l : List (Nat × List Nat)) :
    List.Perm (sortPairs l) l := by
  suffices h : ∀ (l acc : List (Nat × List Nat)),
      List.Perm (l.foldl (fun a x => insPair x a) acc) (acc ++ l) by
    simpa using h l []
  intro l
  induction l with
  | nil => intro acc; simp
  | cons x rest ih =>
    intro acc
    have h1 := ih (insPair x acc)
    have h2 : List.Perm (insPair x acc ++ rest) ((x :: acc) ++ rest) :=
      (insPair_perm x acc).append_right rest
    have h3 : List.Perm ((x :: acc) ++ rest) (acc ++ x :: rest) := by
      simpa using List.perm_middle.symm
    exact (h1.trans h2).trans h3

/-- Sorting distinct-keyed entries yields a strictly key-sorted list. -/
theorem sortPairs_sorted (l : List (Nat × List Nat))
    (h : (l.map Prod.fst).Nodup) :
    List.Pairwise (fun a b => a.1 < b.1) (sortPairs l) := by
  suffices hgen : ∀ (l acc : List (Nat × List Nat)),
      List.Pairwise (fun a b => a.1 < b.1) acc →
      ((acc ++ l).map Prod.fst).Nodup →
      List.Pairwise (fun a b => a.1 < b.1) (l.foldl (fun a x => insPair x a) acc) by
    exact hgen l [] (by simp) (by simpa using h)
  intro l
  induction l with
  | nil => intro acc hp _; exact hp
  | cons x rest ih =>
    intro acc hp hnd
    apply ih
    · apply insPair_sorted x acc hp
      intro q hq hqx
      rw [List.map_append] at hnd
      rcases List.nodup_append.mp hnd with ⟨-, -, hdisj⟩
      exact hdisj (List.mem_map_of_mem Prod.fst hq) (by simp [hqx])
    · have hperm : List.Perm ((insPair x acc ++ rest).map Prod.fst)
          ((acc ++ x :: rest).map Prod.fst) := by
        apply List.Perm.map
        have h2 : List.Perm (insPair x acc ++ rest) ((x :: acc) ++ rest) :=
          (insPair_perm x acc).append_right rest
        have h3 : List.Perm ((x :: acc) ++ rest) (acc ++ x :: rest) := by
          simpa using List.perm_middle.symm
        exact h2.trans h3
      exact hperm.nodup_iff.mpr hnd

/-- A lower bound on every element turns strict sortedness into a chain. -/
theorem chain_le_of_sorted (ps : List Nat) :
    ∀ a : Nat, (∀ q ∈ ps, a ≤ q) → List.Pairwise (fun x y => x < y) ps →
      List.Chain (fun x y => x ≤ y) a ps := by
  induction ps with
  | nil => intro a _ _; exact List.Chain.nil
  | cons p ps' ih =>
    intro a hb hp
    rcases List.pairwise_cons.mp hp with ⟨hph, hp'⟩
    refine List.Chain.cons (hb p (List.mem_cons_self _ _)) ?_
    exact ih p (fun q hq => Nat.le_of_lt (hph q hq)) hp'

/-- `insNat` never returns the empty list. -/
theorem insNat_ne_nil (x : Nat) (acc : List Nat) : insNat x acc ≠ [] := by
  cases acc with
  | nil => simp [insNat]
  | cons y ys =>
    by_cases h1 : x < y
    · simp [insNat, h1]
    · by_cases h2 : x = y <;> simp [insNat, h1, h2]

/-- `sorted(set(ns))` of a nonempty list is nonempty. -/
theorem sortNatSet_ne_nil (ns : List Nat) (h : ns ≠ []) : sortNatSet ns ≠ [] := by
  suffices hgen : ∀ (l acc : List Nat), acc ≠ [] →
      l.foldl (fun a x => insNat x a) acc ≠ [] by
    cases ns with
    | nil => exact absurd rfl h
    | cons x rest =>
      show (x :: rest).foldl (fun a x => insNat x a) [] ≠ []
      rw [List.foldl_cons]
      exact hgen rest (insNat x []) (insNat_ne_nil x [])
  intro l
  induction l with
  | nil => intro acc h; exact h
  | cons y ys ih =>
    intro acc h
    rw [List.foldl_cons]
    exact ih (insNat y acc) (insNat_ne_nil y acc)

/-- C7: `_insert_citations` only interleaves the untouched slices of the
*original* text (cut at the sorted insertion offsets) with
space-plus-bracketed-marker strings; with the markers removed the slices
rejoin to exactly the input, and the whole input text embeds in the
output in order. -/
theorem c7_insert_citations_frame (text : PyStr) (supports : List RawSupport)
    (im : List (Nat × Nat)) :
    ∃ (ps : List Nat) (ms : List PyStr),
      List.Pairwise (fun a b => a < b) ps ∧
      (∀ p ∈ ps, p ≤ text.length) ∧
      ms.length = ps.length ∧
      (∀ m ∈ ms, IsCitationMarker m) ∧
      insertCitations text supports im = weave text 0 ps ms ∧
      weave text 0 ps (List.replicate ps.length []) = text ∧
      List.Sublist text (insertCitations text supports im) := by
  by_cases hguard : supports = [] ∨ im = []
  · refine ⟨[], [], by simp, by simp, rfl, by simp, ?_, by simp [weave], ?_⟩
    · simp [insertCitations, hguard, weave]
    · simp [insertCitations, hguard]
  · by_cases hins : buildInserts text.length supports im = []
    · refine ⟨[], [], by simp, by simp, rfl, by simp, ?_, by simp [weave], ?_⟩
      · simp [insertCitations, hguard, hins, weave]
      · simp [insertCitations, hguard, hins]
    · obtain ⟨hkeys_nodup, hentries⟩ := buildInserts_inv text.length supports im
      set inserts := buildInserts text.length supports im with hins_def
      set entries := sortPairs inserts with hentr
      have hperm : List.Perm entries inserts := sortPairs_perm inserts
      have hsorted : List.Pairwise (fun a b => a.1 < b.1) entries :=
        sortPairs_sorted inserts hkeys_nodup
      set ps := entries.map Prod.fst with hps
      set ms := entries.map (fun q => markerOf (sortNatSet q.2)) with hms
      have hps_sorted : List.Pairwise (fun a b => a < b) ps :=
        List.Pairwise.map Prod.fst (fun a b h => h) hsorted
      have hps_le : ∀ p ∈ ps, p ≤ text.length := by
        intro p hp
        rcases List.mem_map.mp hp with ⟨q, hq, rfl⟩
        exact (hentries q (hperm.mem_iff.mp hq)).1
      have hchain : List.Chain (fun a b => a ≤ b) 0 ps :=
        chain_le_of_sorted ps 0 (fun q _ => Nat.zero_le q) hps_sorted
      have hout : insertCitations text supports im = weave text 0 ps ms := by
        rw [insertCitations]
        rw [if_neg (by push_neg at hguard; simp [hguard])]
        rw [← hins_def, if_neg hins, ← hentr]
        exact emitLoop_eq_weave text entries 0
      refine ⟨ps, ms, hps_sorted, hps_le, by simp [hps, hms], ?_, hout, ?_, ?_⟩
      · intro m hm
        rcases List.mem_map.mp hm with ⟨q, hq, rfl⟩
        have hq2 : q.2 ≠ [] := (hentries q (hperm.mem_iff.mp hq)).2
        have hsn : sortNatSet q.2 ≠ [] := sortNatSet_ne_nil q.2 hq2
        exact ⟨sortNatSet q.2, hsn, rfl⟩
      · have := weave_empty_markers text ps 0 hchain
        simpa using this
      · rw [hout]
        have := drop_sublist_weave text ps ms 0 (by simp [hps, hms]) hchain
        simpa using this

/- ------------------------------------------------------------------ -/
/-! ## C5/C10: the quality gate -/

/-- A stripped-empty line is entirely whitespace. -/
theorem pyStrip_nil_all_ws (l : PyStr) (h : pyStrip l = []) :
    ∀ c ∈ l, c.isWhitespace := by
  intro c hc
  have h1 : (l.dropWhile Char.isWhitespace).reverse.dropWhile Char.isWhitespace = [] := by
    have := congrArg List.reverse h
    simpa [pyStrip] using this
  have h2 : ∀ x ∈ (l.dropWhile Char.isWhitespace).reverse, Char.isWhitespace x :=
    List.dropWhile_eq_nil_iff.mp h1
  have h3 : ∀ x ∈ l.dropWhile Char.isWhitespace, Char.isWhitespace x := by
    intro x hx
    exact h2 x (List.mem_reverse.mpr hx)
  have hsplit : l = l.takeWhile Char.isWhitespace ++ l.dropWhile Char.isWhitespace :=
    (List.takeWhile_append_dropWhile _ _).symm
  rw [hsplit] at hc
  rcases List.mem_append.mp hc with hcc | hcc
  · exact List.mem_takeWhile_imp hcc
  · exact h3 c hcc

/-- `str.split(sep)` never returns an empty list. -/
theorem splitOnChar_ne_nil (sep : Char) (t : PyStr) : splitOnChar sep t ≠ [] := by
  cases t with
  | nil => simp [splitOnChar]
  | cons c rest =>
    by_cases hc : c = sep
    · simp [splitOnChar, hc]
    · simp only [splitOnChar, if_neg hc]
      cases splitOnChar sep rest <;> simp

/-- Every character of a text is the separator or sits on some line. -/
theorem char_mem_lines (sep : Char) (t : PyStr) :
    ∀ c ∈ t, c = sep ∨ ∃ l ∈ splitOnChar sep t, c ∈ l := by
  induction t with
  | nil => simp
  | cons x rest ih =>
    intro c hc
    by_cases hx : x = sep
    · rcases List.mem_cons.mp hc with rfl | hc'
      · exact Or.inl hx
      · rcases ih c hc' with h | ⟨l, hl, hcl⟩
        · exact Or.inl h
        · exact Or.inr ⟨l, by simp [splitOnChar, hx, hl], hcl⟩
    · rcases hrest : splitOnChar sep rest with _ | ⟨h0, tl⟩
      · exact absurd hrest (splitOnChar_ne_nil sep rest)
      · have hsplit : splitOnChar sep (x :: rest) = (x :: h0) :: tl := by
          simp [splitOnChar, hx, hrest]
        rcases List.mem_cons.mp hc with heq | hc'
        · subst heq
          exact Or.inr ⟨c :: h0, by simp [hsplit], List.mem_cons_self _ _⟩
        · rcases ih c hc' with h | ⟨l, hl, hcl⟩
          · exact Or.inl h
          · rw [hrest] at hl
            rcases List.mem_cons.mp hl with heq | hl'
            · subst heq
              exact Or.inr ⟨x :: l, by simp [hsplit], List.mem_cons_of_mem _ hcl⟩
            · exact Or.inr ⟨l, by simp [hsplit, hl'], hcl⟩

/-- An all-whitespace text has no words. -/
theorem pySplitWs_nil_of_all_ws (t : PyStr) (h : ∀ c ∈ t, c.isWhitespace) :
    pySplitWs t = [] := by
  show splitWsAux t [] = []
  induction t with
  | nil => rfl
  | cons c rest ih =>
    have hc : c.isWhitespace := h c (List.mem_cons_self _ _)
    simp only [splitWsAux, if_pos hc, if_pos rfl]
    exact ih (fun x hx => h x (List.mem_cons_of_mem _ hx))

/-- If every line strips to blank, the text has no words. -/
theorem wordCount_zero_of_blank_lines (t : PyStr)
    (h : ∀ l ∈ pyLines t, pyStrip l = []) : wordCount t = 0 := by
  have hws : ∀ c ∈ t, c.isWhitespace := by
    intro c hc
    rcases char_mem_lines '\n' t c hc with rfl | ⟨l, hl, hcl⟩
    · simp [Char.isWhitespace]
    · exact pyStrip_nil_all_ws l (h l hl) c hcl
  simp [wordCount, pySplitWs_nil_of_all_ws t hws]

/-- The line list is empty exactly when every raw line strips to blank. -/
theorem strippedLines_nil_iff (t : PyStr) :
    strippedLines t = [] ↔ ∀ l ∈ pyLines t, pyStrip l = [] := by
  rw [strippedLines, List.filter_eq_nil]
  constructor
  · intro h l hl
    have := h (pyStrip l) (List.mem_map_of_mem pyStrip hl)
    simpa using this
  · intro h l hl
    rcases List.mem_map.mp hl with ⟨raw, hraw, rfl⟩
    simp [h raw hraw]

/-- The outline heuristic, modelled from the spec: at least 6 numbered
lines, no heading lines, and under 600 words (with no special case for
an empty line list). -/
def outlineSpec (t : PyStr) : Bool :=
  decide (6 ≤ ((strippedLines t).filter numberedLine).length) &&
  decide (((strippedLines t).filter headingLine).length = 0) &&
  decide (wordCount t < 600)

/-- `needsRegeneration`, modelled from the spec's three clauses. -/
def needsRegenerationSpec (t : PyStr) (isDeep : Bool) (n : Nat) : Bool :=
  needsRegen t ||
  (isDeep && (decide (n < 3) || outlineSpec t)) ||
  (isDeep && decide (wordCount t < 600))

/-- Mapping a character function preserves a leading match. -/
theorem leadsWith_map (f : Char → Char) (hay needle : PyStr)
    (h : leadsWith hay needle = true) :
    leadsWith (hay.map f) (needle.map f) = true := by
  induction needle generalizing hay with
  | nil => simp [leadsWith]
  | cons n ns ih =>
    cases hay with
    | nil => simp [leadsWith] at h
    | cons x xs =>
      simp only [leadsWith, Bool.and_eq_true, beq_iff_eq] at h
      obtain ⟨rfl, h2⟩ := h
      simp only [List.map_cons, leadsWith, Bool.and_eq_true, beq_iff_eq]
      exact ⟨trivial, ih xs h2⟩

/-- Mapping a character function preserves substring containment. -/
theorem hasSub_map (f : Char → Char) (hay needle : PyStr)
    (h : hasSub hay needle = true) :
    hasSub (hay.map f) (needle.map f) = true := by
  induction hay with
  | nil =>
    simp only [hasSub, List.isEmpty_iff] at h
    simp [h, hasSub]
  | cons x xs ih =>
    simp only [hasSub, Bool.or_eq_true] at h
    rcases h with h | h
    · simp only [List.map_cons, hasSub, Bool.or_eq_true]
      exact Or.inl (leadsWith_map f (x :: xs) needle h)
    · simp only [List.map_cons, hasSub, Bool.or_eq_true]
      exact Or.inr (ih h)

/-- C5: `should_regen` agrees with the spec's
refusal-or-deep-mode-deficit formula on every input; in particular it
fires for any deep-mode response with 2 sources, never fires for a
deep-mode response with at least 600 words, 5 sources and no refusal
phrase, and fires for any-mode text containing `"i cannot directly"`. -/
theorem c5_needs_regeneration_formula :
    (∀ (t : PyStr) (d : Bool) (n : Nat),
      shouldRegen t d n = needsRegenerationSpec t d n) ∧
    (∀ t : PyStr, shouldRegen t true 2 = true) ∧
    (∀ t : PyStr, needsRegen t = false → 600 ≤ wordCount t →
      shouldRegen t true 5 = false) ∧
    (∀ (t : PyStr) (d : Bool) (n : Nat),
      hasSub t (("i cannot directly").data) = true → shouldRegen t d n = true) := by
  have houtline : ∀ t : PyStr, strippedLines t ≠ [] →
      looksLikeOutline t = outlineSpec t := by
    intro t ht
    rcases hl : strippedLines t with _ | ⟨l0, ls⟩
    · exact absurd hl ht
    · simp [looksLikeOutline, outlineSpec, hl]
  have hempty : ∀ t : PyStr, strippedLines t = [] → wordCount t = 0 := by
    intro t ht
    exact wordCount_zero_of_blank_lines t ((strippedLines_nil_iff t).mp ht)
  refine ⟨?_, ?_, ?_, ?_⟩
  · intro t d n
    rcases hl : strippedLines t with _ | ⟨l0, ls⟩
    · have hw : wordCount t = 0 := hempty t hl
      have hol : looksLikeOutline t = true := by simp [looksLikeOutline, hl]
      cases d <;> cases hreg : needsRegen t <;>
        simp [shouldRegen, needsRegenerationSpec, hol, hreg, hw]
    · have := houtline t (by simp [hl])
      simp [shouldRegen, needsRegenerationSpec, this]
  · intro t
    simp [shouldRegen]
  · intro t hreg hw
    have hl : strippedLines t ≠ [] := by
      intro hnil
      have := hempty t hnil
      omega
    have hol : looksLikeOutline t = outlineSpec t := houtline t hl
    have hwlt : decide (wordCount t < 600) = false := by
      simp
      omega
    have hos : outlineSpec t = false := by
      simp only [outlineSpec, hwlt]
      simp
    simp [shouldRegen, hreg, hol, hos, hwlt]
  · intro t d n h
    have hlow : hasSub (lowerP t) (("i cannot directly").data) = true := by
      have hmap := hasSub_map Char.toLower t (("i cannot directly").data) h
      have hfix : (("i cannot directly").data).map Char.toLower =
          ("i cannot directly").data := by decide
      rw [hfix] at hmap
      exact hmap
    have hreg : needsRegen t = true := by
      simp [needsRegen, regenTriggers]
      exact Or.inr (Or.inr (Or.inr (Or.inl hlow)))
    simp [shouldRegen, hreg]

/-- A synthetic `n`-word text (`"w w w ..."`), for the word-count
clauses. -/
def wordsText : Nat → PyStr
  | 0 => []
  | 1 => ['w']
  | n + 2 => 'w' :: ' ' :: wordsText (n + 1)

set_option maxRecDepth 200000 in
/-- Witness for C5: a refusal-free 900-word deep-mode response with 5
sources does not trip the gate, and a text containing
`"i cannot directly"` trips it in any mode. -/
theorem c5_needs_regeneration_formula_witness :
    (needsRegen (wordsText 900) = false) ∧
    (600 ≤ wordCount (wordsText 900)) ∧
    (shouldRegen (wordsText 900) true 5 = false) ∧
    (hasSub (("well i cannot directly do that").data)
        (("i cannot directly").data) = true) ∧
    shouldRegen (("well i cannot directly do that").data) false 9 = true :=
  ⟨by decide, by decide,
    c5_needs_regeneration_formula.2.2.1 (wordsText 900) (by decide) (by decide),
    by decide,
    c5_needs_regeneration_formula.2.2.2 (("well i cannot directly do that").data) false 9
      (by decide)⟩

/-- C10: a text whose lines are all blank (including the empty string)
is classified as an outline, so a deep-mode response with empty or
whitespace-only body always trips the quality gate, for any source
count. -/
theorem c10_blank_text_is_outline (t : PyStr) (n : Nat)
    (h : ∀ l ∈ pyLines t, pyStrip l = []) :
    looksLikeOutline t = true ∧ shouldRegen t true n = true := by
  have hl : strippedLines t = [] := (strippedLines_nil_iff t).mpr h
  have hol : looksLikeOutline t = true := by simp [looksLikeOutline, hl]
  refine ⟨hol, ?_⟩
  simp [shouldRegen, hol]

/-- Witness for C10 at the empty string and a whitespace-only text. -/
theorem c10_blank_text_is_outline_witness :
    (∀ l ∈ pyLines (("  \n \n").data), pyStrip l = []) ∧
    looksLikeOutline (("  \n \n").data) = true ∧
    shouldRegen (("  \n \n").data) true 7 = true :=
  ⟨by decide, c10_blank_text_is_outline (("  \n \n").data) 7 (by decide)⟩

/- ------------------------------------------------------------------ -/
/-! ## Source-list facts for C2/C4/C9 -/

/-- What survives the cleaning pass of `_filter_sources`. -/
theorem mem_filterClean (urls : List PyStr) (u : PyStr) (h : u ∈ filterClean urls) :
    u ∈ urls ∧ u ≠ [] ∧ u ≠ svgUrl ∧ isRedirect u = false := by
  rw [filterClean, List.mem_filterMap] at h
  obtain ⟨a, ha, hfa⟩ := h
  by_cases hae : a = []
  · simp [cleanUrl, hae] at hfa
  · by_cases hasvg : a = svgUrl
    · simp [cleanUrl, hae, hasvg] at hfa
    · by_cases hared : isRedirect a
      · simp [cleanUrl, hae, hasvg, hared] at hfa
      · simp only [cleanUrl, if_neg hae, if_neg hasvg] at hfa
        rw [if_neg (by simpa using hared)] at hfa
        cases hfa
        exact ⟨ha, hae, hasvg, by simpa using hared⟩

/-- The cleaning pass is an order-preserving selection. -/
theorem filterClean_sublist (urls : List PyStr) :
    List.Sublist (filterClean urls) urls := by
  induction urls with
  | nil => simp [filterClean]
  | cons u rest ih =>
    rw [filterClean, List.filterMap_cons]
    cases hm : (match cleanUrl (some u) with
      | none => none
      | some v => if isRedirect v then none else some v : Option PyStr) with
    | none => exact ih.cons u
    | some v =>
      have hv : v = u := by
        by_cases hae : u = []
        · simp [cleanUrl, hae] at hm
        · by_cases hasvg : u = svgUrl
          · simp [cleanUrl, hae, hasvg] at hm
          · simp only [cleanUrl, if_neg hae, if_neg hasvg] at hm
            by_cases hared : isRedirect u
            · rw [if_pos hared] at hm; cases hm
            · rw [if_neg hared] at hm; cases hm; rfl
      subst hv
      exact ih.cons₂ v

/-- `_filter_sources` is duplicate-free and order-preserving. -/
theorem filterSources_nodup_sublist (urls : List PyStr) :
    (filterSources urls).Nodup ∧ List.Sublist (filterSources urls) urls :=
  ⟨dedupFirst_nodup _, (dedupFirst_sublist _).trans (filterClean_sublist urls)⟩

/-- No redirect carrier survives `_filter_sources`. -/
theorem filterSources_no_redirect (urls : List PyStr) (u : PyStr)
    (h : u ∈ filterSources urls) : isRedirect u = false :=
  (mem_filterClean urls u ((mem_dedupFirst _ u).mp h)).2.2.2

/-- The SVG noise URL never survives `_filter_sources`. -/
theorem filterSources_no_svg (urls : List PyStr) (u : PyStr)
    (h : u ∈ filterSources urls) : u ≠ svgUrl :=
  (mem_filterClean urls u ((mem_dedupFirst _ u).mp h)).2.2.1

/-- Every non-null entry the grounding path re-slots is cleaned: it is
nonempty, not the SVG URL and not a redirect carrier. -/
theorem zipBack_values (l : List (Option PyStr)) :
    ∀ (res : List PyStr) (o : Option PyStr), o ∈ zipBack l res →
      o = none ∨ ∃ x, o = some x ∧ x ≠ [] ∧ x ≠ svgUrl ∧ isRedirect x = false := by
  induction l with
  | nil => intro res o h; simp [zipBack] at h
  | cons u rest ih =>
    intro res o h
    by_cases hu : truthyO u
    · cases res with
      | nil =>
        simp only [zipBack, if_pos hu] at h
        rcases List.mem_cons.mp h with rfl | h'
        · exact Or.inl rfl
        · exact ih [] o h'
      | cons r res' =>
        simp only [zipBack, if_pos hu] at h
        rcases List.mem_cons.mp h with heq | h'
        · rcases hc : cleanUrl (some r) with _ | x
          · rw [hc] at heq; exact Or.inl heq
          · rw [hc] at heq
            dsimp only at heq
            by_cases hred : isRedirect x
            · rw [if_pos hred] at heq; exact Or.inl heq
            · rw [if_neg hred] at heq
              subst heq
              refine Or.inr ⟨x, rfl, ?_, ?_, by simpa using hred⟩
              · by_cases hre : r = []
                · simp [cleanUrl, hre] at hc
                · by_cases hrs : r = svgUrl
                  · simp [cleanUrl, hre, hrs] at hc
                  · simp only [cleanUrl, if_neg hre, if_neg hrs] at hc
                    cases hc; exact hre
              · by_cases hre : r = []
                · simp [cleanUrl, hre] at hc
                · by_cases hrs : r = svgUrl
                  · simp [cleanUrl, hre, hrs] at hc
                  · simp only [cleanUrl, if_neg hre, if_neg hrs] at hc
                    cases hc; exact hrs
        · exact ih res' o h'
    · simp only [zipBack, if_neg hu] at h
      rcases List.mem_cons.mp h with rfl | h'
      · exact Or.inl rfl
      · exact ih res o h'

/-- The grounding-path source list is the first-occurrence dedup of the
normalized chunk URLs (first-seen order), and its entries are clean. -/
theorem groundingResolve_sources (fetch : Nat → PyStr → Except Unit PyStr)
    (gm : Grounding) (text : PyStr) :
    (groundingResolve fetch gm text).2 =
      dedupFirst (stripNulls (groundingNormalized fetch gm)) ∧
    (groundingResolve fetch gm text).2.Nodup ∧
    ∀ u ∈ (groundingResolve fetch gm text).2,
      u ≠ [] ∧ u ≠ svgUrl ∧ isRedirect u = false := by
  obtain ⟨hsrc, -, -⟩ := buildSourceMap_inv (groundingNormalized fetch gm)
  have h1 : (groundingResolve fetch gm text).2 =
      dedupFirst (stripNulls (groundingNormalized fetch gm)) := by
    show (buildSourceMap (groundingNormalized fetch gm)).1 = _
    exact hsrc
  refine ⟨h1, by rw [h1]; exact dedupFirst_nodup _, ?_⟩
  intro u hu
  rw [h1, mem_dedupFirst] at hu
  rw [stripNulls, List.mem_filterMap] at hu
  obtain ⟨o, ho, hfo⟩ := hu
  have hz := zipBack_values (parseGroundingChunkUrls gm) _ o ho
  cases o with
  | none => simp at hfo
  | some v =>
    dsimp only at hfo
    by_cases hv : v = []
    · simp [hv] at hfo
    · rw [if_neg hv] at hfo
      cases hfo
      rcases hz with h | ⟨x, hx, hx1, hx2, hx3⟩
      · cases h
      · cases hx
        exact ⟨hx1, hx2, hx3⟩

/-- The last dedupe/filter pass returns nothing or a filtered list. -/
theorem ite_filter_cases (b : List PyStr) :
    (if b ≠ [] then filterSources b else b) = [] ∨
      ∃ base, (if b ≠ [] then filterSources b else b) = filterSources base := by
  by_cases hb : b = []
  · simp [hb]
  · exact Or.inr ⟨b, by simp [hb]⟩

/-- The fallback chain returns either nothing or a `_filter_sources`
output. -/
theorem applyFallbacks_cases (sl sset pset : List PyStr) :
    applyFallbacks sl sset pset = [] ∨
      ∃ base, applyFallbacks sl sset pset = filterSources base :=
  ite_filter_cases _

/-- The regeneration fallback chain, likewise. -/
theorem applyFallbacksRegen_cases (sl rset : List PyStr) :
    applyFallbacksRegen sl rset = [] ∨
      ∃ base, applyFallbacksRegen sl rset = filterSources base :=
  ite_filter_cases _

/- ------------------------------------------------------------------ -/
/-! ## Lexicographic sortedness of `sorted(set(...))` -/

/-- Characters with equal code points are equal. -/
theorem char_toNat_inj (a b : Char) (h : a.toNat = b.toNat) : a = b := by
  apply Char.ext
  apply UInt32.ext
  exact h

/-- `lexLt` is transitive. -/
theorem lexLt_trans (a : PyStr) :
    ∀ b c : PyStr, lexLt a b = true → lexLt b c = true → lexLt a c = true := by
  induction a with
  | nil =>
    intro b c hab hbc
    cases c with
    | nil =>
      cases b with
      | nil => simp [lexLt] at hab
      | cons y ys => simp [lexLt] at hbc
    | cons z zs => simp [lexLt]
  | cons x xs ih =>
    intro b c hab hbc
    cases b with
    | nil => simp [lexLt] at hab
    | cons y ys =>
      cases c with
      | nil => simp [lexLt] at hbc
      | cons z zs =>
        simp only [lexLt] at hab hbc ⊢
        by_cases hxy : x.toNat < y.toNat
        · by_cases hyz : y.toNat < z.toNat
          · rw [if_pos (by omega : x.toNat < z.toNat)]
          · rw [if_neg hyz] at hbc
            by_cases hzy : z.toNat < y.toNat
            · rw [if_pos hzy] at hbc
              exact absurd hbc (by simp)
            · rw [if_pos (by omega : x.toNat < z.toNat)]
        · by_cases hyx : y.toNat < x.toNat
          · rw [if_neg hxy, if_pos hyx] at hab
            exact absurd hab (by simp)
          · rw [if_neg hxy, if_neg hyx] at hab
            by_cases hyz : y.toNat < z.toNat
            · rw [if_pos (by omega : x.toNat < z.toNat)]
            · rw [if_neg hyz] at hbc
              by_cases hzy : z.toNat < y.toNat
              · rw [if_pos hzy] at hbc
                exact absurd hbc (by simp)
              · rw [if_neg hzy] at hbc
                rw [if_neg (by omega : ¬x.toNat < z.toNat),
                  if_neg (by omega : ¬z.toNat < x.toNat)]
                exact ih ys zs hab hbc

/-- `lexLt` is total on distinct strings. -/
theorem lexLt_total (a : PyStr) :
    ∀ b : PyStr, lexLt a b = true ∨ a = b ∨ lexLt b a = true := by
  induction a with
  | nil =>
    intro b
    cases b with
    | nil => exact Or.inr (Or.inl rfl)
    | cons y ys => exact Or.inl (by simp [lexLt])
  | cons x xs ih =>
    intro b
    cases b with
    | nil => exact Or.inr (Or.inr (by simp [lexLt]))
    | cons y ys =>
      by_cases hxy : x.toNat < y.toNat
      · exact Or.inl (by simp [lexLt, hxy])
      · by_cases hyx : y.toNat < x.toNat
        · exact Or.inr (Or.inr (by simp [lexLt, hyx]))
        · have hx : x = y := char_toNat_inj x y (by omega)
          subst hx
          rcases ih ys with h | h | h
          · exact Or.inl (by simp [lexLt, h])
          · exact Or.inr (Or.inl (by rw [h]))
          · exact Or.inr (Or.inr (by simp [lexLt, h]))

/-- Membership after a sorted-set insertion. -/
theorem insLex_mem (x : PyStr) :
    ∀ (acc : List PyStr) (z : PyStr), z ∈ insLex x acc → z = x ∨ z ∈ acc := by
  intro acc
  induction acc with
  | nil => intro z h; simpa [insLex] using h
  | cons y ys ih =>
    intro z h
    by_cases h1 : lexLt x y = true
    · simp only [insLex, if_pos h1] at h
      rcases List.mem_cons.mp h with rfl | h'
      · exact Or.inl rfl
      · exact Or.inr h'
    · by_cases h2 : x = y
      · simp only [insLex, if_neg h1, if_pos h2] at h
        exact Or.inr h
      · simp only [insLex, if_neg h1, if_neg h2] at h
        rcases List.mem_cons.mp h with rfl | h'
        · exact Or.inr (List.mem_cons_self _ _)
        · rcases ih z h' with hz | hz
          · exact Or.inl hz
          · exact Or.inr (List.mem_cons_of_mem _ hz)

/-- Sorted-set insertion keeps the list strictly sorted. -/
theorem insLex_sorted (x : PyStr) :
    ∀ acc : List PyStr, List.Pairwise (fun a b => lexLt a b = true) acc →
      List.Pairwise (fun a b => lexLt a b = true) (insLex x acc) := by
  intro acc
  induction acc with
  | nil => intro _; simp [insLex]
  | cons y ys ih =>
    intro hp
    rcases List.pairwise_cons.mp hp with ⟨hy, hp'⟩
    by_cases h1 : lexLt x y = true
    · simp only [insLex, if_pos h1]
      refine List.pairwise_cons.mpr ⟨?_, hp⟩
      intro z hz
      rcases List.mem_cons.mp hz with rfl | hz'
      · exact h1
      · exact lexLt_trans x y z h1 (hy z hz')
    · by_cases h2 : x = y
      · simp only [insLex, if_neg h1, if_pos h2]
        exact hp
      · simp only [insLex, if_neg h1, if_neg h2]
        have hyx : lexLt y x = true := by
          rcases lexLt_total x y with h | h | h
          · exact absurd h h1
          · exact absurd h h2
          · exact h
        refine List.pairwise_cons.mpr ⟨?_, ih hp'⟩
        intro z hz
        rcases insLex_mem x ys z hz with rfl | hz'
        · exact hyx
        · exact hy z hz'

/-- `sorted(set(l))` is strictly lexicographically sorted. -/
theorem setSorted_sorted (l : List PyStr) :
    List.Pairwise (fun a b => lexLt a b = true) (setSorted l) := by
  suffices h : ∀ (l acc : List PyStr), List.Pairwise (fun a b => lexLt a b = true) acc →
      List.Pairwise (fun a b => lexLt a b = true)
        (l.foldl (fun a x => insLex x a) acc) by
    exact h l [] (by simp)
  intro l
  induction l with
  | nil => intro acc h; exact h
  | cons x rest ih =>
    intro acc h
    exact ih (insLex x acc) (insLex_sorted x acc h)

/- ------------------------------------------------------------------ -/
/-! ## The final event's source list, per execution -/

/-- The only `final` source list of an execution is `resultOf`'s. -/
theorem finalSourceLists_chat_stream (env : Env) (req : PyChatRequest) :
    finalSourceLists (chat_stream env req) =
      match resultOf env req with
      | .ok r => [r.2]
      | .error _ => [] := by
  have hnone : (chatEvents env req).filterMap (fun e =>
      match e with
      | .final _ s => some s
      | _ => none) = [] := by
    rw [List.filterMap_eq_nil]
    intro e he
    have ht := chatEvents_nonterminal env req e he
    cases e <;> simp_all [isTerminal]
  unfold chat_stream
  rw [chatBody_run]
  cases hr : resultOf env req with
  | ok r => simp [finalSourceLists, List.filterMap_append, hnone]
  | error e => simp [finalSourceLists, List.filterMap_append, hnone]

/-- When the quality gate does not trip, the final source list is the
main pass's fallback-chain output. -/
theorem final_sources_no_regen (env : Env) (req : PyChatRequest)
    (S : List PyStr)
    (hnr : mainShouldRegen env (wantsDeepResearch (lastContent req)) = false)
    (hS : S ∈ finalSourceLists (chat_stream env req)) :
    S = (mainResolved env (wantsDeepResearch (lastContent req))).2 := by
  rw [finalSourceLists_chat_stream] at hS
  cases hr : resultOf env req with
  | ok r =>
    rw [hr] at hS
    rcases List.mem_singleton.mp hS with rfl
    simp only [resultOf] at hr
    cases hchk : deepChecks env (wantsDeepResearch (lastContent req)) with
    | error e => rw [hchk] at hr; cases hr
    | ok _ =>
      rw [hchk] at hr
      cases hme : optErr env.mainErr with
      | error e => rw [hme] at hr; cases hr
      | ok _ =>
        rw [hme, if_neg (by simp [hnr])] at hr
        cases hr
        rfl
  | error e => rw [hr] at hS; simp at hS

/-- The main pass's source list always comes out of the fallback chain. -/
theorem mainResolved_snd (env : Env) (d : Bool) :
    ∃ sl0, (mainResolved env d).2 =
      applyFallbacks sl0 (streamUrlsOf env.mainChunks) (preSourcesOf env d) := by
  unfold mainResolved
  cases lastGroundingOf env.mainChunks <;> exact ⟨_, rfl⟩

/- ------------------------------------------------------------------ -/
/-! ## C4: dedup yes, but sorted — not first-seen — order on fallbacks -/

/-- The request `"Hi there"` (conversational). -/
def reqHi : PyChatRequest := ⟨[⟨("user").data, ("Hi there").data⟩]⟩

/-- C4's environment: the stream discovers two URLs in the order
beta-then-alpha and carries no grounding metadata. -/
def envC4 : Env :=
  { envBase with
    mainChunks :=
      [⟨[("https://beta.example").data, ("https://alpha.example").data], none,
        some (("hello world").data), []⟩] }

/-- C4 counterexample: the final source list of a stream-discovered-URLs
execution is lexicographically sorted, not in first-seen order — the
URLs were first observed beta-then-alpha but the `final` event lists
alpha-then-beta. -/
theorem c4_first_seen_counterexample :
    finalSourceLists (chat_stream envC4 reqHi) =
      [[("https://alpha.example").data, ("https://beta.example").data]] ∧
    streamUrlsOf envC4.mainChunks =
      [("https://beta.example").data, ("https://alpha.example").data] ∧
    (("https://alpha.example").data : PyStr) ≠ ("https://beta.example").data := by
  refine ⟨by decide, by decide, by decide⟩

/-- C4 (amended): every final source list is duplicate-free (when it is
produced by the three priority paths, i.e. whenever the quality gate
does not trip; the unfiltered repair branch is outside this claim);
`_filter_sources` is an order-preserving dedupe; the grounding path
lists sources in first-seen (first-occurrence) order of the normalized
chunk URLs; the stream-discovered and gathering-pool paths list them in
lexicographically sorted order instead of first-seen order. -/
theorem c4_amended_dedupe_and_order :
    (∀ l : List PyStr, (filterSources l).Nodup ∧ List.Sublist (filterSources l) l) ∧
    (∀ (fetch : Nat → PyStr → Except Unit PyStr) (gm : Grounding) (text : PyStr),
      (groundingResolve fetch gm text).2 =
        dedupFirst (stripNulls (groundingNormalized fetch gm)) ∧
      (groundingResolve fetch gm text).2.Nodup) ∧
    (∀ s : List PyStr,
      List.Pairwise (fun a b => lexLt a b = true) (filterSources (setSorted s))) ∧
    (∀ (env : Env) (req : PyChatRequest) (S : List PyStr),
      mainShouldRegen env (wantsDeepResearch (lastContent req)) = false →
      S ∈ finalSourceLists (chat_stream env req) → S.Nodup) := by
  refine ⟨filterSources_nodup_sublist, ?_, ?_, ?_⟩
  · intro fetch gm text
    obtain ⟨h1, h2, -⟩ := groundingResolve_sources fetch gm text
    exact ⟨h1, h2⟩
  · intro s
    exact (setSorted_sorted s).sublist (filterSources_nodup_sublist (setSorted s)).2
  · intro env req S hnr hS
    rw [final_sources_no_regen env req S hnr hS]
    obtain ⟨sl0, hsl⟩ := mainResolved_snd env (wantsDeepResearch (lastContent req))
    rw [hsl]
    rcases applyFallbacks_cases sl0 (streamUrlsOf env.mainChunks)
        (preSourcesOf env (wantsDeepResearch (lastContent req))) with h | ⟨base, h⟩
    · rw [h]; exact List.nodup_nil
    · rw [h]; exact (filterSources_nodup_sublist base).1

/-- Witness for C4 (amended): the no-regeneration clause at a concrete
benign environment. -/
theorem c4_amended_dedupe_and_order_witness :
    (mainShouldRegen envC4 (wantsDeepResearch (lastContent reqHi)) = false) ∧
    (([("https://alpha.example").data, ("https://beta.example").data] : List PyStr)
      ∈ finalSourceLists (chat_stream envC4 reqHi)) ∧
    ([("https://alpha.example").data, ("https://beta.example").data] : List PyStr).Nodup :=
  ⟨by decide, by decide,
    c4_amended_dedupe_and_order.2.2.2 envC4 reqHi
      [("https://alpha.example").data, ("https://beta.example").data]
      (by decide) (by decide)⟩

/- ------------------------------------------------------------------ -/
/-! ## C2: redirect carriers and the source-repair hole -/

/-- A concrete redirect-carrier URL. -/
def redirectExampleUrl : PyStr :=
  ("https://vertexaisearch.cloud.google.com/grounding-api-redirect/abc").data

/-- The conversational request of the repair scenario. -/
def reqC2 : PyChatRequest := ⟨[⟨("user").data, ("Find the Acme 10-K").data⟩]⟩

/-- C2's environment: the main answer is a refusal (tripping the gate),
the regeneration recovers no sources but its text carries a title-only
`Sources` line, and the repair call answers with a redirect-carrier
URL for that title. -/
def envC2 : Env :=
  { envBase with
    mainChunks := [tokenChunk (("i cannot directly help").data)],
    regenChunks :=
      [tokenChunk (("Report body\n\nSources\n[1] Acme 10-K Filing").data)],
    repairCall :=
      .ok (some [⟨some (("Acme 10-K Filing").data), some redirectExampleUrl⟩]) }

/-- C2 counterexample: the source-repair path emits the repaired URLs
unfiltered, so a redirect-carrier URL returned by the repair call
appears verbatim in the `final` event's source list. -/
theorem c2_redirect_counterexample :
    finalSourceLists (chat_stream envC2 reqC2) = [[redirectExampleUrl]] ∧
    isRedirect redirectExampleUrl = true := by
  refine ⟨by decide, by decide⟩

/-- C2 (amended): no redirect-carrier URL survives `_filter_sources` or
the grounding path, and no execution in which the quality gate does not
trip carries one in its final source list; the source-repair branch,
however, emits repaired URLs unfiltered, so it can carry one (see the
counterexample). -/
theorem c2_amended_no_redirect :
    (∀ (l : List PyStr) (u : PyStr), u ∈ filterSources l → isRedirect u = false) ∧
    (∀ (fetch : Nat → PyStr → Except Unit PyStr) (gm : Grounding) (text : PyStr)
      (u : PyStr), u ∈ (groundingResolve fetch gm text).2 → isRedirect u = false) ∧
    (∀ (env : Env) (req : PyChatRequest) (S : List PyStr) (u : PyStr),
      mainShouldRegen env (wantsDeepResearch (lastContent req)) = false →
      S ∈ finalSourceLists (chat_stream env req) → u ∈ S →
      isRedirect u = false) := by
  refine ⟨filterSources_no_redirect, ?_, ?_⟩
  · intro fetch gm text u hu
    exact ((groundingResolve_sources fetch gm text).2.2 u hu).2.2
  · intro env req S u hnr hS hu
    rw [final_sources_no_regen env req S hnr hS] at hu
    obtain ⟨sl0, hsl⟩ := mainResolved_snd env (wantsDeepResearch (lastContent req))
    rw [hsl] at hu
    rcases applyFallbacks_cases sl0 (streamUrlsOf env.mainChunks)
        (preSourcesOf env (wantsDeepResearch (lastContent req))) with h | ⟨base, h⟩
    · rw [h] at hu; simp at hu
    · rw [h] at hu; exact filterSources_no_redirect base u hu

/-- Witness for C2 (amended): the no-regeneration clause at the benign
two-URL environment. -/
theorem c2_amended_no_redirect_witness :
    (mainShouldRegen envC4 (wantsDeepResearch (lastContent reqHi)) = false) ∧
    isRedirect (("https://alpha.example").data) = false :=
  ⟨by decide,
    c2_amended_no_redirect.2.2 envC4 reqHi
      [("https://alpha.example").data, ("https://beta.example").data]
      (("https://alpha.example").data) (by decide) (by decide) (by decide)⟩

/- ------------------------------------------------------------------ -/
/-! ## C9: the SVG namespace URL is treated as absent -/

/-- C9: a chunk whose effective URL is the literal SVG namespace URL is
nulled by `_parse_grounding` at any position, gets no display index from
`_build_source_map`, and never appears in a source list produced by the
citation mapper or the dedupe filter (i.e. by any of the three priority
source paths). -/
theorem c9_svg_url_is_null :
    (∀ (gm : Grounding) (i : Nat) (c : RawChunk), gm.chunks.get? i = some c →
      pyOr c.webUri c.chunkUri = some svgUrl →
      (parseGroundingChunkUrls gm).get? i = some none) ∧
    (∀ (l : List (Option PyStr)) (i : Nat), l.get? i = some none →
      List.lookup i (buildSourceMap l).2 = none) ∧
    (∀ l : List PyStr, svgUrl ∉ filterSources l) ∧
    (∀ (fetch : Nat → PyStr → Except Unit PyStr) (gm : Grounding) (text : PyStr),
      svgUrl ∉ (groundingResolve fetch gm text).2) := by
  refine ⟨?_, ?_, ?_, ?_⟩
  · intro gm i c hget hor
    unfold parseGroundingChunkUrls
    rw [List.get?_map, hget]
    simp only [Option.map]
    rw [hor]
    have : cleanUrl (some svgUrl) = none := by decide
    rw [this]
  · intro l i hget
    obtain ⟨-, -, himap⟩ := buildSourceMap_inv l
    have := himap i
    rw [hget] at this
    exact this
  · intro l h
    exact filterSources_no_svg l svgUrl h rfl
  · intro fetch gm text h
    exact ((groundingResolve_sources fetch gm text).2.2 svgUrl h).2.1 rfl

/-- Witness for C9 at a one-chunk grounding whose web URI is the SVG
namespace URL. -/
theorem c9_svg_url_is_null_witness :
    ((Grounding.mk [⟨some svgUrl, none⟩] []).chunks.get? 0 =
      some ⟨some svgUrl, none⟩) ∧
    (pyOr (some svgUrl) none = some svgUrl) ∧
    (parseGroundingChunkUrls (Grounding.mk [⟨some svgUrl, none⟩] [])).get? 0 =
      some none :=
  ⟨by decide, by decide,
    c9_svg_url_is_null.1 (Grounding.mk [⟨some svgUrl, none⟩] []) 0
      ⟨some svgUrl, none⟩ (by decide) (by decide)⟩
